import Mathlib

/-!
Verification of the `cutoff_list` crate (`src/lib.rs`).

The crate provides `CutoffList<T>`: a sequence container backed by
`index_list::IndexList` in which every element tracks how many of a fixed,
sorted vector of "cutoff positions" precede or coincide with its current
0-based rank, and a cache `following_ind` maps each cutoff index `q` to the
`Index` of the first element whose rank is `>= cutoff_positions[q]`.

The underlying `index_list::IndexList` is an external collaborator whose code
is not part of this repository; it is modelled here from the specification's
contract (stable-handle ordered list, arena/slot table with removed slots
returned to a free list for reuse).  An `Index` is modelled as `Option Nat`:
`none` is the empty `Index` (`Index::new()` / `Index::default()`), `some id`
is a live or stale slot id.
-/

set_option linter.unusedVariables false
set_option autoImplicit false

namespace CutoffSpec

/-- Association-list primitive: value of the first node whose slot id is `id`.
Models `IndexList` node lookup by `Index`. -/
def lookupId {α : Type} : List (Nat × α) → Nat → Option α
  | [], _ => none
  | x :: rest, id => if x.1 = id then some x.2 else lookupId rest id

/-- Association-list primitive: position (0-based rank) of the first node whose
slot id is `id`. -/
def posOf {α : Type} : List (Nat × α) → Nat → Option Nat
  | [], _ => none
  | x :: rest, id => if x.1 = id then some 0 else (posOf rest id).map (· + 1)

/-- Association-list primitive: removes the first node whose slot id is `id`. -/
def eraseId {α : Type} : List (Nat × α) → Nat → List (Nat × α)
  | [], _ => []
  | x :: rest, id => if x.1 = id then rest else x :: eraseId rest id

/-- Association-list primitive: applies `f` to the value of every node whose
slot id is `id` (at most one node in a well-formed store, where slot ids are
distinct). Models `IndexList::get_mut` followed by a write. -/
def mapId {α : Type} (nodes : List (Nat × α)) (id : Nat) (f : α → α) : List (Nat × α) :=
  nodes.map (fun x => if x.1 = id then (x.1, f x.2) else x)

/-- Modelled from the spec: the Sequence Store (`index_list::IndexList`), whose
source is not part of this repository.  `nodes` is the sequence in order, each
element tagged with its stable slot id; `free` is the free list of reusable
slot ids ("removed slots returned to a free list for reuse", spec sec. 9);
`next_id` is the next never-used slot id. -/
structure IndexList (α : Type) where
  nodes : List (Nat × α)
  free : List Nat
  next_id : Nat
deriving Repr

namespace IndexList

/-- Modelled from the spec: `IndexList::new()`, the empty store. -/
def new {α : Type} : IndexList α := ⟨[], [], 0⟩

/-- Modelled from the spec: `IndexList::len()`. -/
def len {α : Type} (l : IndexList α) : Nat := l.nodes.length

/-- Modelled from the spec: `IndexList::is_empty()`. -/
def is_empty {α : Type} (l : IndexList α) : Bool := l.nodes.isEmpty

/-- Modelled from the spec: slot allocation — a removed slot is reused from the
free list when one is available, otherwise a fresh id is taken. -/
def alloc {α : Type} (l : IndexList α) : Nat × List Nat × Nat :=
  match l.free with
  | [] => (l.next_id, [], l.next_id + 1)
  | id :: rest => (id, rest, l.next_id)

/-- Modelled from the spec: `IndexList::insert_first`, returning the new
`Index` and the updated store. -/
def insert_first {α : Type} (l : IndexList α) (value : α) : Option Nat × IndexList α :=
  (some l.alloc.1, ⟨(l.alloc.1, value) :: l.nodes, l.alloc.2.1, l.alloc.2.2⟩)

/-- Modelled from the spec: `IndexList::insert_last`, returning the new
`Index` and the updated store. -/
def insert_last {α : Type} (l : IndexList α) (value : α) : Option Nat × IndexList α :=
  (some l.alloc.1, ⟨l.nodes ++ [(l.alloc.1, value)], l.alloc.2.1, l.alloc.2.2⟩)

/-- Modelled from the spec: `IndexList::get`. -/
def get {α : Type} (l : IndexList α) (i : Option Nat) : Option α :=
  i.bind (lookupId l.nodes)

/-- Modelled from the spec: `IndexList::get_mut` followed by a write through
the returned reference, as the functional update `f`. In the well-formed
states the crate produces, slot ids are distinct, so at most one node is
affected. -/
def get_mut {α : Type} (l : IndexList α) (i : Option Nat) (f : α → α) : IndexList α :=
  match i with
  | none => l
  | some id => ⟨mapId l.nodes id f, l.free, l.next_id⟩

/-- Modelled from the spec: `IndexList::next_index` — the `Index` of the node
after `i` in sequence order, or the empty `Index`. -/
def next_index {α : Type} (l : IndexList α) (i : Option Nat) : Option Nat :=
  match i.bind (posOf l.nodes) with
  | none => none
  | some j => (l.nodes[j + 1]?).map Prod.fst

/-- Modelled from the spec: `IndexList::prev_index` — the `Index` of the node
before `i` in sequence order, or the empty `Index`. -/
def prev_index {α : Type} (l : IndexList α) (i : Option Nat) : Option Nat :=
  match i.bind (posOf l.nodes) with
  | none => none
  | some 0 => none
  | some (j + 1) => (l.nodes[j]?).map Prod.fst

/-- Modelled from the spec: `IndexList::first_index`. -/
def first_index {α : Type} (l : IndexList α) : Option Nat :=
  l.nodes.head?.map Prod.fst

/-- Modelled from the spec: `IndexList::last_index`. -/
def last_index {α : Type} (l : IndexList α) : Option Nat :=
  l.nodes.getLast?.map Prod.fst

/-- Modelled from the spec: `IndexList::remove` — removes the node with
`Index` `i`, returning its value and pushing the slot id onto the free list;
returns `none` and leaves the store unchanged when `i` is empty or stale. -/
def remove {α : Type} (l : IndexList α) (i : Option Nat) : Option α × IndexList α :=
  match i with
  | none => (none, l)
  | some id =>
    match lookupId l.nodes id with
    | none => (none, l)
    | some v => (some v, ⟨eraseId l.nodes id, id :: l.free, l.next_id⟩)

/-- Modelled from the spec: `IndexList::shift_index_to_front` — moves the node
with `Index` `i` to the front, reporting whether a node was moved. -/
def shift_index_to_front {α : Type} (l : IndexList α) (i : Option Nat) :
    Bool × IndexList α :=
  match i with
  | none => (false, l)
  | some id =>
    match lookupId l.nodes id with
    | none => (false, l)
    | some v => (true, ⟨(id, v) :: eraseId l.nodes id, l.free, l.next_id⟩)

end IndexList

/-- Internal entry of `CutoffList` (`struct Entry<T>` in `lib.rs`): the stored
value together with the count of cutoff positions `c` with `c <= p`, where `p`
is the entry's current 0-based rank. -/
structure Entry (T : Type) where
  value : T
  preceding_cutoffs : Nat
deriving Repr

/-- The `CutoffList<T>` structure of `lib.rs`: the sorted cutoff positions,
the cache `following_ind` (entry `q` holds the `Index` of the first element at
rank `>= cutoff_positions[q]`, or the empty `Index`), and the underlying
`IndexList` of entries. -/
structure CutoffList (T : Type) where
  cutoff_positions : List Nat
  following_ind : List (Option Nat)
  list : IndexList (Entry T)
deriving Repr

namespace CutoffList

/-- Embeds `CutoffList::new`.  The Rust function asserts that
`cutoff_positions` is sorted non-decreasingly; that precondition is carried as
a hypothesis of the theorems below. -/
def new {T : Type} (cutoff_positions : List Nat) : CutoffList T :=
  { cutoff_positions := cutoff_positions
    following_ind := List.replicate cutoff_positions.length none
    list := IndexList.new }

/-- Embeds `CutoffList::is_empty`. -/
def is_empty {T : Type} (s : CutoffList T) : Bool := s.list.is_empty

/-- Embeds `CutoffList::len`. -/
def len {T : Type} (s : CutoffList T) : Nat := s.list.len

/-- Embeds `CutoffList::count_leading_zeros`: how many entries of
`cutoff_positions` are 0. -/
def count_leading_zeros {T : Type} (s : CutoffList T) : Nat :=
  (s.cutoff_positions.takeWhile (fun c => c == 0)).length

/-- Embeds the second loop of `CutoffList::insert_first` (lines 105-118 of
`lib.rs`): it walks the remaining `(cutoff position, following_ind entry)`
pairs; a non-empty entry is retargeted one step backward, an empty entry whose
cutoff equals the old length is set to the last node, and the walk breaks when
the cutoff exceeds the old length; in the first two cases the newly pointed
entry's `preceding_cutoffs` is incremented.  Returns the updated entries and
store. -/
def insert_first_loop {T : Type} (new_last_pos : Nat) :
    IndexList (Entry T) → List (Nat × Option Nat) →
      List (Option Nat) × IndexList (Entry T)
  | list, [] => ([], list)
  | list, (p, ind) :: rest =>
    if ind.isSome then
      let ind' := list.prev_index ind
      let list' := list.get_mut ind'
        (fun e => { e with preceding_cutoffs := e.preceding_cutoffs + 1 })
      let r := insert_first_loop new_last_pos list' rest
      (ind' :: r.1, r.2)
    else if p = new_last_pos then
      let ind' := list.last_index
      let list' := list.get_mut ind'
        (fun e => { e with preceding_cutoffs := e.preceding_cutoffs + 1 })
      let r := insert_first_loop new_last_pos list' rest
      (ind' :: r.1, r.2)
    else
      (ind :: rest.map Prod.snd, list)

/-- Embeds `CutoffList::insert_first`.  The zipped iterator of the Rust code
is exact because `cutoff_positions` and `following_ind` always have the same
length (invariant I3, established by `new` and preserved by every operation).
The first loop writes the new `Index` into the leading-zero-run entries; the
second loop is `insert_first_loop`. -/
def insert_first {T : Type} (s : CutoffList T) (value : T) :
    Option Nat × CutoffList T :=
  let new_last_pos := s.list.len
  let preceding_cutoffs := s.count_leading_zeros
  let ins := s.list.insert_first ⟨value, preceding_cutoffs⟩
  let zipped := s.cutoff_positions.zip s.following_ind
  let r := insert_first_loop new_last_pos ins.2 (zipped.drop preceding_cutoffs)
  (ins.1,
    { s with
      following_ind := (zipped.take preceding_cutoffs).map (fun _ => ins.1) ++ r.1
      list := r.2 })

/-- Embeds the scanning loop of `CutoffList::insert_last` (lines 131-143 of
`lib.rs`): counts cutoffs `<=` the new position, breaking at the first greater
one, and records the first index whose cutoff equals the new position
(`at_q.get_or_insert(q)`).  `q` is the absolute index of the first list
element. -/
def insert_last_scan (new_pos : Nat) : List Nat → Nat → Nat × Option Nat
  | [], _ => (0, none)
  | cutoff :: rest, q =>
    if cutoff < new_pos then
      let r := insert_last_scan new_pos rest (q + 1)
      (r.1 + 1, r.2)
    else if cutoff = new_pos then
      let r := insert_last_scan new_pos rest (q + 1)
      (r.1 + 1, some q)
    else
      (0, none)

/-- Embeds the cache-update loop of `CutoffList::insert_last` (lines 148-161):
starting at the first cutoff equal to the new position, sets each entry of the
run of equal cutoffs to the new `Index`, breaking at the first greater
cutoff. -/
def insert_last_set (new_pos : Nat) (new_index : Option Nat) :
    List (Nat × Option Nat) → List (Option Nat)
  | [] => []
  | (cutoff, ind) :: rest =>
    if cutoff = new_pos then new_index :: insert_last_set new_pos new_index rest
    else ind :: rest.map Prod.snd

/-- Embeds `CutoffList::insert_last`. -/
def insert_last {T : Type} (s : CutoffList T) (value : T) :
    Option Nat × CutoffList T :=
  let new_pos := s.list.len
  let scan := insert_last_scan new_pos s.cutoff_positions 0
  let ins := s.list.insert_last ⟨value, scan.1⟩
  let following_ind :=
    match scan.2 with
    | none => s.following_ind
    | some q =>
      s.following_ind.take q ++
        insert_last_set new_pos ins.1
          ((s.cutoff_positions.drop q).zip (s.following_ind.drop q))
  (ins.1, { s with following_ind := following_ind, list := ins.2 })

/-- Embeds the loop of `CutoffList::shift_to_front` over cutoff indices
`leading_zeros..preceding_cutoffs` (lines 187-197 of `lib.rs`): an entry equal
to the moved `Index` is retargeted to the moved element's former predecessor,
any other entry one step backward; the newly pointed entry's
`preceding_cutoffs` is incremented.  The first argument of the recursion is
the remaining iteration count. -/
def shift_to_front_loop {T : Type} (prev_ind ind : Option Nat) :
    Nat → IndexList (Entry T) → List (Option Nat) →
      List (Option Nat) × IndexList (Entry T)
  | 0, list, inds => (inds, list)
  | _ + 1, list, [] => ([], list)
  | k + 1, list, cutoff_ind :: rest =>
    let cutoff_ind' := if cutoff_ind = ind then prev_ind else list.prev_index cutoff_ind
    let list' := list.get_mut cutoff_ind'
      (fun e => { e with preceding_cutoffs := e.preceding_cutoffs + 1 })
    let r := shift_to_front_loop prev_ind ind k list' rest
    (cutoff_ind' :: r.1, r.2)

/-- Embeds `CutoffList::shift_to_front`.  When `prev_index ind` is empty —
`ind` is already first or not live — nothing changes.  Otherwise the moved
entry's `preceding_cutoffs` is replaced by the leading-zero count, the node is
shifted to the front, the leading-zero-run cache entries are set to `ind`, and
`shift_to_front_loop` repairs the rest.  (`self.list.get_mut(ind).unwrap()`
cannot panic there: `prev_index ind` being non-empty implies `ind` is live.) -/
def shift_to_front {T : Type} (s : CutoffList T) (ind : Option Nat) : CutoffList T :=
  let prev_ind := s.list.prev_index ind
  if prev_ind.isNone then s
  else
    let leading_zeros := s.count_leading_zeros
    let preceding_cutoffs := ((s.list.get ind).map Entry.preceding_cutoffs).getD 0
    let list0 := s.list.get_mut ind
      (fun e => { e with preceding_cutoffs := leading_zeros })
    let list1 := (list0.shift_index_to_front ind).2
    let r := shift_to_front_loop prev_ind ind (preceding_cutoffs - leading_zeros)
      list1 (s.following_ind.drop leading_zeros)
    { s with
      following_ind := (s.following_ind.take leading_zeros).map (fun _ => ind) ++ r.1
      list := r.2 }

/-- Embeds the backward loop of `CutoffList::remove` over
`before.iter_mut().rev()` (lines 213-219 of `lib.rs`), applied here to the
reversed prefix: entries equal to the removed `Index` are replaced by the
removed node's former successor, breaking at the first other entry. -/
def remove_before_loop (index next_index : Option Nat) :
    List (Option Nat) → List (Option Nat)
  | [] => []
  | ind :: rest =>
    if ind = index then next_index :: remove_before_loop index next_index rest
    else ind :: rest

/-- Embeds the forward loop of `CutoffList::remove` over `after` (lines
220-226 of `lib.rs`): while the entry is non-empty, the pointed entry's
`preceding_cutoffs` is decremented and the cache entry advances to that node's
successor; the loop breaks at the first empty entry. -/
def remove_after_loop {T : Type} :
    IndexList (Entry T) → List (Option Nat) →
      List (Option Nat) × IndexList (Entry T)
  | list, [] => ([], list)
  | list, ind :: rest =>
    if ind.isNone then (ind :: rest, list)
    else
      let list' := list.get_mut ind
        (fun e => { e with preceding_cutoffs := e.preceding_cutoffs - 1 })
      let ind' := list'.next_index ind
      let r := remove_after_loop list' rest
      (ind' :: r.1, r.2)

/-- Embeds `CutoffList::remove`.  The successor of the removed node is
recorded first; a stale or empty `Index` makes `self.list.remove(index)?`
return early with `None` and no state change. -/
def remove {T : Type} (s : CutoffList T) (index : Option Nat) :
    Option T × CutoffList T :=
  let next_index := s.list.next_index index
  match s.list.remove index with
  | (none, _) => (none, s)
  | (some removed, list) =>
    let preceding_cutoffs := removed.preceding_cutoffs
    let before := s.following_ind.take preceding_cutoffs
    let after := s.following_ind.drop preceding_cutoffs
    let before' := (remove_before_loop index next_index before.reverse).reverse
    let r := remove_after_loop list after
    (some removed.value, { s with following_ind := before' ++ r.1, list := r.2 })

/-- Embeds the public accessor `CutoffList::validate`'s expected count: the
number of cutoff positions `c` with `c <= p`.  This is the quantity that
invariant I1 asserts for the element at rank `p`. -/
def expected_cutoffs {T : Type} (s : CutoffList T) (p : Nat) : Nat :=
  s.cutoff_positions.countP (fun c => decide (c ≤ p))

/-- Embeds `CutoffList::preceding_cutoffs` (the public accessor). -/
def preceding_cutoffs {T : Type} (s : CutoffList T) (ind : Option Nat) : Option Nat :=
  (s.list.get ind).map Entry.preceding_cutoffs

/-- Embeds the public accessor `CutoffList::following_ind` (named
`following_handle` in the spec; renamed here because the Lean structure field
already carries the Rust field's name): the cached `Index` for cutoff index
`q`, or the empty `Index` when `q` is out of bounds. -/
def following_handle {T : Type} (s : CutoffList T) (q : Nat) : Option Nat :=
  (s.following_ind[q]?).getD none

/-- Embeds `CutoffList::get`. -/
def get {T : Type} (s : CutoffList T) (ind : Option Nat) : Option T :=
  (s.list.get ind).map Entry.value

/-- Embeds `CutoffList::first_index`. -/
def first_index {T : Type} (s : CutoffList T) : Option Nat :=
  s.list.first_index

/-- Embeds `CutoffList::next_index`. -/
def next_index {T : Type} (s : CutoffList T) (ind : Option Nat) : Option Nat :=
  s.list.next_index ind

end CutoffList

/-! Basic facts about the association-list primitives. -/

section Primitives

variable {α : Type}

theorem lookupId_eq_none_iff {nodes : List (Nat × α)} {id : Nat} :
    lookupId nodes id = none ↔ id ∉ nodes.map Prod.fst := by
  induction nodes with
  | nil => simp [lookupId]
  | cons x rest ih =>
    by_cases h : x.1 = id
    · simp [lookupId, h]
    · simp only [lookupId, if_neg h, List.map_cons, List.mem_cons, not_or, ih]
      exact ⟨fun hn => ⟨fun he => h he.symm, hn⟩, fun hn => hn.2⟩

theorem posOf_eq_none_iff {nodes : List (Nat × α)} {id : Nat} :
    posOf nodes id = none ↔ id ∉ nodes.map Prod.fst := by
  induction nodes with
  | nil => simp [posOf]
  | cons x rest ih =>
    by_cases h : x.1 = id
    · simp [posOf, h]
    · simp only [posOf, if_neg h, Option.map_eq_none', List.map_cons, List.mem_cons,
        not_or, ih]
      exact ⟨fun hn => ⟨fun he => h he.symm, hn⟩, fun hn => hn.2⟩

theorem posOf_getElem? {nodes : List (Nat × α)} (nd : (nodes.map Prod.fst).Nodup)
    {j : Nat} {x : Nat × α} (h : nodes[j]? = some x) : posOf nodes x.1 = some j := by
  induction nodes generalizing j with
  | nil => simp at h
  | cons y rest ih =>
    rcases j with _ | j
    · simp only [List.getElem?_cons_zero, Option.some.injEq] at h
      subst h
      simp [posOf]
    · simp only [List.getElem?_cons_succ] at h
      have hxmem : x.1 ∈ rest.map Prod.fst :=
        List.mem_map_of_mem Prod.fst (List.getElem?_mem h)
      have hy : y.1 ≠ x.1 := by
        intro he
        exact (List.nodup_cons.mp nd).1 (he ▸ hxmem)
      simp [posOf, hy, ih (List.nodup_cons.mp nd).2 h]

theorem lookupId_getElem? {nodes : List (Nat × α)} (nd : (nodes.map Prod.fst).Nodup)
    {j : Nat} {x : Nat × α} (h : nodes[j]? = some x) : lookupId nodes x.1 = some x.2 := by
  induction nodes generalizing j with
  | nil => simp at h
  | cons y rest ih =>
    rcases j with _ | j
    · simp only [List.getElem?_cons_zero, Option.some.injEq] at h
      subst h
      simp [lookupId]
    · simp only [List.getElem?_cons_succ] at h
      have hxmem : x.1 ∈ rest.map Prod.fst :=
        List.mem_map_of_mem Prod.fst (List.getElem?_mem h)
      have hy : y.1 ≠ x.1 := by
        intro he
        exact (List.nodup_cons.mp nd).1 (he ▸ hxmem)
      simp [lookupId, hy, ih (List.nodup_cons.mp nd).2 h]

theorem posOf_some {nodes : List (Nat × α)} {id j : Nat}
    (h : posOf nodes id = some j) : ∃ v, nodes[j]? = some (id, v) := by
  induction nodes generalizing j with
  | nil => simp [posOf] at h
  | cons y rest ih =>
    by_cases hy : y.1 = id
    · simp only [posOf] at h
      rw [if_pos hy] at h
      obtain rfl : (0 : Nat) = j := Option.some.inj h
      exact ⟨y.2, by simp [← hy]⟩
    · simp only [posOf] at h
      rw [if_neg hy, Option.map_eq_some'] at h
      obtain ⟨j', hj', hj⟩ := h
      subst hj
      obtain ⟨v, hv⟩ := ih hj'
      exact ⟨v, by simpa using hv⟩

theorem eraseId_of_not_mem {nodes : List (Nat × α)} {id : Nat}
    (h : id ∉ nodes.map Prod.fst) : eraseId nodes id = nodes := by
  induction nodes with
  | nil => rfl
  | cons x rest ih =>
    simp only [List.map_cons, List.mem_cons, not_or] at h
    have hx : x.1 ≠ id := fun he => h.1 he.symm
    simp [eraseId, hx, ih h.2]

theorem eraseId_eq {nodes : List (Nat × α)} (nd : (nodes.map Prod.fst).Nodup)
    {j : Nat} {x : Nat × α} (h : nodes[j]? = some x) :
    eraseId nodes x.1 = nodes.take j ++ nodes.drop (j + 1) := by
  induction nodes generalizing j with
  | nil => simp at h
  | cons y rest ih =>
    rcases j with _ | j
    · simp only [List.getElem?_cons_zero, Option.some.injEq] at h
      subst h
      simp [eraseId]
    · simp only [List.getElem?_cons_succ] at h
      have hxmem : x.1 ∈ rest.map Prod.fst :=
        List.mem_map_of_mem Prod.fst (List.getElem?_mem h)
      have hy : y.1 ≠ x.1 := by
        intro he
        exact (List.nodup_cons.mp nd).1 (he ▸ hxmem)
      simp [eraseId, hy, ih (List.nodup_cons.mp nd).2 h]

theorem getElem?_take_append_drop {nodes : List α} {j : Nat} (hj : j < nodes.length)
    (i : Nat) :
    (nodes.take j ++ nodes.drop (j + 1))[i]? =
      if i < j then nodes[i]? else nodes[i + 1]? := by
  rw [List.getElem?_append]
  have hlen : (nodes.take j).length = j := by
    simp [List.length_take, Nat.min_eq_left (Nat.le_of_lt hj)]
  rw [hlen]
  by_cases hij : i < j
  · simp [hij, List.getElem?_take, hij]
  · simp only [hij, if_neg, if_false]
    rw [List.getElem?_drop]
    congr 1
    omega

theorem mapId_map_fst {nodes : List (Nat × α)} {id : Nat} {f : α → α} :
    (mapId nodes id f).map Prod.fst = nodes.map Prod.fst := by
  simp only [mapId, List.map_map]
  refine List.map_congr_left fun x _ => ?_
  by_cases h : x.1 = id <;> simp [h]

theorem getElem?_mapId {nodes : List (Nat × α)} {id : Nat} {f : α → α} (i : Nat) :
    (mapId nodes id f)[i]? =
      nodes[i]?.map (fun x => if x.1 = id then (x.1, f x.2) else x) := by
  simp [mapId, List.getElem?_map]

theorem getElem?_mapId_eq {nodes : List (Nat × α)} (nd : (nodes.map Prod.fst).Nodup)
    {j : Nat} {x : Nat × α} (h : nodes[j]? = some x) {f : α → α} (i : Nat) :
    (mapId nodes x.1 f)[i]? =
      if i = j then some (x.1, f x.2) else nodes[i]? := by
  rw [getElem?_mapId]
  by_cases hij : i = j
  · subst hij
    simp [h]
  · simp only [hij, if_neg, if_false]
    cases hi : nodes[i]? with
    | none => rfl
    | some y =>
      have hyx : y.1 ≠ x.1 := by
        intro he
        have h1 : (nodes.map Prod.fst)[i]? = some x.1 := by
          rw [List.getElem?_map, hi]
          simp [he]
        have h2 : (nodes.map Prod.fst)[j]? = some x.1 := by
          rw [List.getElem?_map, h]
          rfl
        obtain ⟨hi', hi2⟩ := List.getElem?_eq_some_iff.mp h1
        obtain ⟨hj', hj2⟩ := List.getElem?_eq_some_iff.mp h2
        exact hij ((List.Nodup.getElem_inj_iff nd).mp (hi2.trans hj2.symm))
      simp [hyx]

theorem mapId_of_not_mem {nodes : List (Nat × α)} {id : Nat} {f : α → α}
    (h : id ∉ nodes.map Prod.fst) : mapId nodes id f = nodes := by
  induction nodes with
  | nil => rfl
  | cons x rest ih =>
    simp only [List.map_cons, List.mem_cons, not_or] at h
    have hx : x.1 ≠ id := fun he => h.1 he.symm
    simp only [mapId, List.map_cons] at ih ⊢
    rw [if_neg hx, ih h.2]

theorem length_mapId {nodes : List (Nat × α)} {id : Nat} {f : α → α} :
    (mapId nodes id f).length = nodes.length := by
  simp [mapId]

end Primitives

/-! Facts depending only on the store's skeleton (the slot ids in sequence
order): the traversal helpers read nothing else, and the repair loops change
nothing else. -/

section Skeleton

variable {α β T : Type}

/-- Projection to slot id and stored value, forgetting the bookkeeping
counter. The repair loops preserve it. -/
def keyVal {T : Type} (x : Nat × Entry T) : Nat × T := (x.1, x.2.value)

theorem map_fst_getElem? {nodes : List (Nat × α)} (j : Nat) :
    nodes[j]?.map Prod.fst = (nodes.map Prod.fst)[j]? :=
  (List.getElem?_map _ _ _).symm

theorem posOf_congr {nodes : List (Nat × α)} {nodes' : List (Nat × β)}
    (h : nodes.map Prod.fst = nodes'.map Prod.fst) (id : Nat) :
    posOf nodes id = posOf nodes' id := by
  induction nodes generalizing nodes' with
  | nil =>
    cases nodes' with
    | nil => rfl
    | cons y rest' => simp at h
  | cons x rest ih =>
    cases nodes' with
    | nil => simp at h
    | cons y rest' =>
      simp only [List.map_cons, List.cons.injEq] at h
      simp only [posOf, h.1, ih h.2]

theorem IndexList.prev_index_congr {l : IndexList α} {l' : IndexList β}
    (h : l.nodes.map Prod.fst = l'.nodes.map Prod.fst) (i : Option Nat) :
    l.prev_index i = l'.prev_index i := by
  have hpos : i.bind (posOf l.nodes) = i.bind (posOf l'.nodes) := by
    cases i with
    | none => rfl
    | some id => simp [posOf_congr h]
  simp only [IndexList.prev_index, hpos]
  cases i.bind (posOf l'.nodes) with
  | none => rfl
  | some j =>
    cases j with
    | zero => rfl
    | succ j => simp only [map_fst_getElem?, h]

theorem IndexList.next_index_congr {l : IndexList α} {l' : IndexList β}
    (h : l.nodes.map Prod.fst = l'.nodes.map Prod.fst) (i : Option Nat) :
    l.next_index i = l'.next_index i := by
  have hpos : i.bind (posOf l.nodes) = i.bind (posOf l'.nodes) := by
    cases i with
    | none => rfl
    | some id => simp [posOf_congr h]
  simp only [IndexList.next_index, hpos]
  cases i.bind (posOf l'.nodes) with
  | none => rfl
  | some j => simp only [map_fst_getElem?, h]

theorem IndexList.last_index_congr {l : IndexList α} {l' : IndexList β}
    (h : l.nodes.map Prod.fst = l'.nodes.map Prod.fst) :
    l.last_index = l'.last_index := by
  have hlen : l.nodes.length = l'.nodes.length := by
    have := congrArg List.length h
    simpa using this
  simp only [IndexList.last_index, List.getLast?_eq_getElem?, hlen, map_fst_getElem?, h]

theorem IndexList.prev_index_some (l : IndexList α) (id : Nat) :
    l.prev_index (some id) =
      match posOf l.nodes id with
      | none => none
      | some 0 => none
      | some (j + 1) => (l.nodes[j]?).map Prod.fst := rfl

theorem IndexList.next_index_some (l : IndexList α) (id : Nat) :
    l.next_index (some id) =
      match posOf l.nodes id with
      | none => none
      | some j => (l.nodes[j + 1]?).map Prod.fst := rfl

theorem IndexList.prev_index_none (l : IndexList α) : l.prev_index none = none := rfl

theorem IndexList.next_index_none (l : IndexList α) : l.next_index none = none := rfl

theorem IndexList.get_mut_nodes_map_fst (l : IndexList α) (i : Option Nat) (f : α → α) :
    (l.get_mut i f).nodes.map Prod.fst = l.nodes.map Prod.fst := by
  cases i with
  | none => rfl
  | some id => exact mapId_map_fst

theorem IndexList.get_mut_free (l : IndexList α) (i : Option Nat) (f : α → α) :
    (l.get_mut i f).free = l.free := by
  cases i <;> rfl

theorem IndexList.get_mut_next_id (l : IndexList α) (i : Option Nat) (f : α → α) :
    (l.get_mut i f).next_id = l.next_id := by
  cases i <;> rfl

theorem mapId_map_keyVal {nodes : List (Nat × Entry T)} {id : Nat}
    {f : Entry T → Entry T} (hf : ∀ e, (f e).value = e.value) :
    (mapId nodes id f).map keyVal = nodes.map keyVal := by
  simp only [mapId, List.map_map]
  refine List.map_congr_left fun x _ => ?_
  by_cases h : x.1 = id <;> simp [keyVal, h, hf]

theorem IndexList.get_mut_map_keyVal (l : IndexList (Entry T)) (i : Option Nat)
    {f : Entry T → Entry T} (hf : ∀ e, (f e).value = e.value) :
    (l.get_mut i f).nodes.map keyVal = l.nodes.map keyVal := by
  cases i with
  | none => rfl
  | some id => exact mapId_map_keyVal hf

theorem IndexList.get_mut_incr_keyVal (l : IndexList (Entry T)) (i : Option Nat) :
    (l.get_mut i
        (fun e => { e with preceding_cutoffs := e.preceding_cutoffs + 1 })).nodes.map
      keyVal = l.nodes.map keyVal :=
  IndexList.get_mut_map_keyVal l i (fun _ => rfl)

theorem IndexList.get_mut_decr_keyVal (l : IndexList (Entry T)) (i : Option Nat) :
    (l.get_mut i
        (fun e => { e with preceding_cutoffs := e.preceding_cutoffs - 1 })).nodes.map
      keyVal = l.nodes.map keyVal :=
  IndexList.get_mut_map_keyVal l i (fun _ => rfl)

theorem IndexList.get_mut_setPc_keyVal (l : IndexList (Entry T)) (i : Option Nat)
    (z : Nat) :
    (l.get_mut i (fun e => { e with preceding_cutoffs := z })).nodes.map keyVal =
      l.nodes.map keyVal :=
  IndexList.get_mut_map_keyVal l i (fun _ => rfl)

/-- Structural effect of `CutoffList.insert_first_loop`: it never changes the skeleton,
the stored values, the free list or the fresh-id counter, and it yields one
cache entry per input pair. -/
theorem CutoffList.insert_first_loop_skel (n : Nat) (zs : List (Nat × Option Nat))
    (L : IndexList (Entry T)) :
    (CutoffList.insert_first_loop n L zs).2.nodes.map Prod.fst = L.nodes.map Prod.fst ∧
    (CutoffList.insert_first_loop n L zs).2.nodes.map keyVal = L.nodes.map keyVal ∧
    (CutoffList.insert_first_loop n L zs).2.free = L.free ∧
    (CutoffList.insert_first_loop n L zs).2.next_id = L.next_id ∧
    (CutoffList.insert_first_loop n L zs).1.length = zs.length := by
  induction zs generalizing L with
  | nil => simp [CutoffList.insert_first_loop]
  | cons pi rest ih =>
    obtain ⟨p, ind⟩ := pi
    cases ind with
    | some id =>
      have h := ih (L.get_mut (L.prev_index (some id))
        (fun e => { e with preceding_cutoffs := e.preceding_cutoffs + 1 }))
      simp only [CutoffList.insert_first_loop, Option.isSome_some, if_true]
      refine ⟨?_, ?_, ?_, ?_, ?_⟩ <;>
        simp [h.1, h.2.1, h.2.2.1, h.2.2.2.1, h.2.2.2.2,
          IndexList.get_mut_nodes_map_fst, IndexList.get_mut_free,
          IndexList.get_mut_next_id, IndexList.get_mut_incr_keyVal,
          IndexList.get_mut_decr_keyVal]
    | none =>
      by_cases h2 : p = n
      · have h := ih (L.get_mut L.last_index
          (fun e => { e with preceding_cutoffs := e.preceding_cutoffs + 1 }))
        simp only [CutoffList.insert_first_loop, Option.isSome_none, Bool.false_eq_true,
          if_false, if_pos h2]
        refine ⟨?_, ?_, ?_, ?_, ?_⟩ <;>
          simp [h.1, h.2.1, h.2.2.1, h.2.2.2.1, h.2.2.2.2,
            IndexList.get_mut_nodes_map_fst, IndexList.get_mut_free,
            IndexList.get_mut_next_id, IndexList.get_mut_incr_keyVal,
            IndexList.get_mut_decr_keyVal]
      · simp [CutoffList.insert_first_loop, if_neg h2]

/-- Structural effect of `CutoffList.shift_to_front_loop`. -/
theorem CutoffList.shift_to_front_loop_skel (prev_ind ind : Option Nat) (k : Nat)
    (inds : List (Option Nat)) (L : IndexList (Entry T)) :
    (CutoffList.shift_to_front_loop prev_ind ind k L inds).2.nodes.map Prod.fst =
        L.nodes.map Prod.fst ∧
    (CutoffList.shift_to_front_loop prev_ind ind k L inds).2.nodes.map keyVal =
        L.nodes.map keyVal ∧
    (CutoffList.shift_to_front_loop prev_ind ind k L inds).2.free = L.free ∧
    (CutoffList.shift_to_front_loop prev_ind ind k L inds).2.next_id = L.next_id ∧
    (CutoffList.shift_to_front_loop prev_ind ind k L inds).1.length = inds.length := by
  induction k generalizing L inds with
  | zero => simp [CutoffList.shift_to_front_loop]
  | succ k ih =>
    cases inds with
    | nil => simp [CutoffList.shift_to_front_loop]
    | cons cutoff_ind rest =>
      have h := ih rest (L.get_mut
        (if cutoff_ind = ind then prev_ind else L.prev_index cutoff_ind)
        (fun e => { e with preceding_cutoffs := e.preceding_cutoffs + 1 }))
      simp only [CutoffList.shift_to_front_loop]
      refine ⟨?_, ?_, ?_, ?_, ?_⟩ <;>
        simp [h.1, h.2.1, h.2.2.1, h.2.2.2.1, h.2.2.2.2,
          IndexList.get_mut_nodes_map_fst, IndexList.get_mut_free,
          IndexList.get_mut_next_id, IndexList.get_mut_incr_keyVal,
          IndexList.get_mut_decr_keyVal]

/-- Structural effect of `CutoffList.remove_after_loop`. -/
theorem CutoffList.remove_after_loop_skel (es : List (Option Nat)) (L : IndexList (Entry T)) :
    (CutoffList.remove_after_loop L es).2.nodes.map Prod.fst = L.nodes.map Prod.fst ∧
    (CutoffList.remove_after_loop L es).2.nodes.map keyVal = L.nodes.map keyVal ∧
    (CutoffList.remove_after_loop L es).2.free = L.free ∧
    (CutoffList.remove_after_loop L es).2.next_id = L.next_id ∧
    (CutoffList.remove_after_loop L es).1.length = es.length := by
  induction es generalizing L with
  | nil => simp [CutoffList.remove_after_loop]
  | cons ind rest ih =>
    cases ind with
    | none => simp [CutoffList.remove_after_loop]
    | some id =>
      have h := ih (L.get_mut (some id)
        (fun e => { e with preceding_cutoffs := e.preceding_cutoffs - 1 }))
      simp only [CutoffList.remove_after_loop, Option.isNone_some, Bool.false_eq_true,
        if_false]
      refine ⟨?_, ?_, ?_, ?_, ?_⟩ <;>
        simp [h.1, h.2.1, h.2.2.1, h.2.2.2.1, h.2.2.2.2,
          IndexList.get_mut_nodes_map_fst, IndexList.get_mut_free,
          IndexList.get_mut_next_id, IndexList.get_mut_incr_keyVal,
          IndexList.get_mut_decr_keyVal]

theorem CutoffList.remove_before_loop_length (index next_index : Option Nat)
    (rs : List (Option Nat)) :
    (CutoffList.remove_before_loop index next_index rs).length = rs.length := by
  induction rs with
  | nil => rfl
  | cons ind rest ih =>
    by_cases h : ind = index <;> simp [CutoffList.remove_before_loop, h, ih]

theorem CutoffList.insert_last_set_length (new_pos : Nat) (new_index : Option Nat)
    (zs : List (Nat × Option Nat)) :
    (CutoffList.insert_last_set new_pos new_index zs).length = zs.length := by
  induction zs with
  | nil => rfl
  | cons pi rest ih =>
    obtain ⟨c, ind⟩ := pi
    by_cases h : c = new_pos <;> simp [CutoffList.insert_last_set, h, ih]

end Skeleton

/-! Counting lemmas on sorted cutoff lists. -/

section Counting

theorem countP_le_split (l : List Nat) (j : Nat) :
    l.countP (fun c => decide (c ≤ j + 1)) =
      l.countP (fun c => decide (c ≤ j)) + l.countP (fun c => decide (c = j + 1)) := by
  induction l with
  | nil => rfl
  | cons c rest ih =>
    simp only [List.countP_cons, ih]
    by_cases h1 : c ≤ j
    · have h3 : c ≤ j + 1 := by omega
      have h4 : ¬c = j + 1 := by omega
      simp [h1, h3, h4]
      omega
    · by_cases h2 : c = j + 1
      · have h3 : c ≤ j + 1 := by omega
        simp [h1, h2, h3]
        omega
      · have h3 : ¬c ≤ j + 1 := by omega
        simp [h1, h2, h3]

theorem countP_eq_zero_of_forall {l : List Nat} {p : Nat → Bool}
    (h : ∀ a ∈ l, ¬p a = true) : l.countP p = 0 :=
  List.countP_eq_zero.mpr h

theorem sorted_countP_lt_iff {l : List Nat} (hs : List.Sorted (· ≤ ·) l) {q c : Nat}
    (h : l[q]? = some c) (x : Nat) :
    q < l.countP (fun c' => decide (c' ≤ x)) ↔ c ≤ x := by
  induction l generalizing q with
  | nil => simp at h
  | cons hd tl ih =>
    rw [List.sorted_cons] at hs
    rcases q with _ | q
    · have hhd : hd = c := by simpa using h
      subst hhd
      by_cases hc : hd ≤ x
      · simp [List.countP_cons, hc]
      · have hz : tl.countP (fun c' => decide (c' ≤ x)) = 0 :=
          countP_eq_zero_of_forall fun a ha => by
            have := hs.1 a ha
            simp only [decide_eq_true_eq]
            omega
        simp [List.countP_cons, hc, hz]
    · have h' : tl[q]? = some c := by simpa using h
      clear h
      by_cases hhd : hd ≤ x
      · simp only [List.countP_cons, decide_eq_true_eq, hhd, if_true]
        rw [Nat.succ_lt_succ_iff]
        exact ih hs.2 h'
      · have hcm : c ∈ tl := List.getElem?_mem h'
        have hc : ¬c ≤ x := by
          have := hs.1 c hcm
          omega
        have hz : tl.countP (fun c' => decide (c' ≤ x)) = 0 :=
          countP_eq_zero_of_forall fun a ha => by
            have := hs.1 a ha
            simp only [decide_eq_true_eq]
            omega
        simp [List.countP_cons, hhd, hz, hc]

theorem sorted_countP_le_iff {l : List Nat} (hs : List.Sorted (· ≤ ·) l) {q c : Nat}
    (h : l[q]? = some c) (x : Nat) :
    l.countP (fun c' => decide (c' ≤ x)) ≤ q ↔ x < c := by
  have h1 := sorted_countP_lt_iff hs h x
  omega

theorem sorted_le_getElem? {l : List Nat} (hs : List.Sorted (· ≤ ·) l) {i j a b : Nat}
    (hij : i ≤ j) (ha : l[i]? = some a) (hb : l[j]? = some b) : a ≤ b := by
  rcases Nat.lt_or_ge i j with hlt | hge
  · obtain ⟨hi', ha'⟩ := List.getElem?_eq_some_iff.mp ha
    obtain ⟨hj', hb'⟩ := List.getElem?_eq_some_iff.mp hb
    have := (List.pairwise_iff_getElem.mp hs) i j hi' hj' hlt
    rw [ha', hb'] at this
    exact this
  · have : i = j := Nat.le_antisymm hij hge
    subst this
    rw [ha] at hb
    exact le_of_eq (Option.some.inj hb)

theorem takeWhile_zero_length {l : List Nat} (hs : List.Sorted (· ≤ ·) l) :
    (l.takeWhile (fun c => c == 0)).length = l.countP (fun c => decide (c ≤ 0)) := by
  induction l with
  | nil => rfl
  | cons hd tl ih =>
    rw [List.sorted_cons] at hs
    by_cases h : hd = 0
    · subst h
      simp only [List.takeWhile_cons, List.countP_cons]
      simp [ih hs.2]
    · have hz : tl.countP (fun c => decide (c ≤ 0)) = 0 :=
        countP_eq_zero_of_forall fun a ha => by
          have := hs.1 a ha
          simp only [decide_eq_true_eq]
          omega
      have hz' : tl.countP (fun c => decide (c = 0)) = 0 := by
        simpa [Nat.le_zero] using hz
      simp [List.takeWhile_cons, List.countP_cons, h, hz, hz']

end Counting

/-! Well-formedness of the store, the main invariant, and reachability. -/

section Invariant

variable {α β T : Type}

/-- Well-formedness of the modelled Sequence Store: live slot ids are
distinct, free slot ids are distinct, every issued id is below the fresh-id
counter, and no free id is live. -/
structure IndexList.WF (l : IndexList α) : Prop where
  nodup_nodes : (l.nodes.map Prod.fst).Nodup
  nodup_free : l.free.Nodup
  nodes_lt : ∀ id ∈ l.nodes.map Prod.fst, id < l.next_id
  free_lt : ∀ id ∈ l.free, id < l.next_id
  free_not_live : ∀ id ∈ l.free, id ∉ l.nodes.map Prod.fst

/-- The `CutoffList` invariant: a well-formed store, the two auxiliary
vectors of equal length (I3), sorted cutoffs (I4), correct
`preceding_cutoffs` for the element at every rank (I1), and a correct
`following_ind` cache entry for every cutoff (I2: the first element at rank
`>= c` is exactly the element at rank `c`). -/
structure CutoffList.Inv (s : CutoffList T) : Prop where
  wf : s.list.WF
  len_eq : s.following_ind.length = s.cutoff_positions.length
  sorted : List.Sorted (· ≤ ·) s.cutoff_positions
  count_ok : ∀ (p : Nat) (x : Nat × Entry T), s.list.nodes[p]? = some x →
    x.2.preceding_cutoffs = s.expected_cutoffs p
  cache_ok : ∀ (q c : Nat), s.cutoff_positions[q]? = some c →
    s.following_ind[q]? = some ((s.list.nodes[c]?).map Prod.fst)

/-- The states reachable from `CutoffList::new` (with its sortedness
precondition) by the four public mutating operations. -/
inductive CutoffList.Reachable : CutoffList T → Prop where
  | new (cutoffs : List Nat) (h : List.Sorted (· ≤ ·) cutoffs) :
      Reachable (CutoffList.new cutoffs)
  | insert_first (s : CutoffList T) (v : T) :
      Reachable s → Reachable (s.insert_first v).2
  | insert_last (s : CutoffList T) (v : T) :
      Reachable s → Reachable (s.insert_last v).2
  | shift_to_front (s : CutoffList T) (i : Option Nat) :
      Reachable s → Reachable (s.shift_to_front i)
  | remove (s : CutoffList T) (i : Option Nat) :
      Reachable s → Reachable (s.remove i).2

theorem IndexList.WF_of_eq {l : IndexList α} {l' : IndexList β}
    (wf : l.WF) (h1 : l.nodes.map Prod.fst = l'.nodes.map Prod.fst)
    (h2 : l.free = l'.free) (h3 : l.next_id = l'.next_id) : l'.WF := by
  constructor
  · rw [← h1]
    exact wf.nodup_nodes
  · rw [← h2]
    exact wf.nodup_free
  · rw [← h1, ← h3]
    exact wf.nodes_lt
  · rw [← h2, ← h3]
    exact wf.free_lt
  · rw [← h2, ← h1]
    exact wf.free_not_live

theorem IndexList.alloc_not_live {l : IndexList α} (wf : l.WF) :
    l.alloc.1 ∉ l.nodes.map Prod.fst := by
  cases hf : l.free with
  | nil =>
    simp only [IndexList.alloc, hf]
    intro hmem
    exact absurd (wf.nodes_lt _ hmem) (lt_irrefl _)
  | cons id rest =>
    simp only [IndexList.alloc, hf]
    exact wf.free_not_live id (hf ▸ List.mem_cons_self id rest)

theorem IndexList.alloc_wf {l : IndexList α} (wf : l.WF) :
    l.alloc.1 < l.alloc.2.2 ∧
    l.alloc.2.1.Nodup ∧
    (∀ id ∈ l.alloc.2.1, id < l.alloc.2.2) ∧
    (∀ id ∈ l.alloc.2.1, id ∉ l.nodes.map Prod.fst) ∧
    (∀ id ∈ l.alloc.2.1, id ≠ l.alloc.1) ∧
    (∀ id ∈ l.nodes.map Prod.fst, id < l.alloc.2.2) := by
  cases hf : l.free with
  | nil =>
    simp only [IndexList.alloc, hf]
    refine ⟨Nat.lt_succ_self _, List.nodup_nil, ?_, ?_, ?_, ?_⟩
    · intro id hm
      simp at hm
    · intro id hm
      simp at hm
    · intro id hm
      simp at hm
    · intro id hm
      exact Nat.lt_succ_of_lt (wf.nodes_lt _ hm)
  | cons a rest =>
    have ha : a ∈ l.free := hf ▸ List.mem_cons_self a rest
    have hnodup := wf.nodup_free
    rw [hf, List.nodup_cons] at hnodup
    simp only [IndexList.alloc, hf]
    refine ⟨wf.free_lt _ ha, hnodup.2, ?_, ?_, ?_, wf.nodes_lt⟩
    · intro id hm
      exact wf.free_lt _ (hf ▸ List.mem_cons_of_mem a hm)
    · intro id hm
      exact wf.free_not_live id (hf ▸ List.mem_cons_of_mem a hm)
    · intro id hm heq
      exact hnodup.1 (heq ▸ hm)

theorem IndexList.insert_first_wf {l : IndexList α} (wf : l.WF) (v : α) :
    (l.insert_first v).2.WF := by
  obtain ⟨h1, h2, h3, h4, h5, h6⟩ := IndexList.alloc_wf wf
  have hfresh := IndexList.alloc_not_live wf
  refine ⟨?_, h2, ?_, h3, ?_⟩ <;>
    simp only [IndexList.insert_first, List.map_cons, List.nodup_cons, List.mem_cons]
  · exact ⟨hfresh, wf.nodup_nodes⟩
  · rintro id (rfl | hm)
    · exact h1
    · exact h6 _ hm
  · rintro id hm (rfl | hlive)
    · exact h5 _ hm rfl
    · exact h4 _ hm hlive

theorem IndexList.insert_last_wf {l : IndexList α} (wf : l.WF) (v : α) :
    (l.insert_last v).2.WF := by
  obtain ⟨h1, h2, h3, h4, h5, h6⟩ := IndexList.alloc_wf wf
  have hfresh := IndexList.alloc_not_live wf
  have hmem : ∀ id, id ∈ (l.insert_last v).2.nodes.map Prod.fst ↔
      id ∈ l.nodes.map Prod.fst ∨ id = l.alloc.1 := by
    intro id
    simp [IndexList.insert_last]
  refine ⟨?_, h2, ?_, h3, ?_⟩
  · simp only [IndexList.insert_last, List.map_append, List.map_cons, List.map_nil]
    show (List.map Prod.fst l.nodes ++ l.alloc.1 :: []).Nodup
    rw [List.nodup_middle, List.append_nil, List.nodup_cons]
    exact ⟨hfresh, wf.nodup_nodes⟩
  · intro id hm
    rcases (hmem id).mp hm with hm | rfl
    · exact h6 _ hm
    · exact h1
  · intro id hm hlive
    rcases (hmem id).mp hlive with hl | rfl
    · exact h4 _ hm hl
    · exact h5 _ hm rfl

theorem lookupId_some {nodes : List (Nat × α)} {id : Nat} {v : α}
    (h : lookupId nodes id = some v) : ∃ j : Nat, nodes[j]? = some (id, v) := by
  induction nodes with
  | nil => simp [lookupId] at h
  | cons y rest ih =>
    by_cases hy : y.1 = id
    · refine ⟨0, ?_⟩
      simp only [lookupId] at h
      rw [if_pos hy] at h
      obtain rfl : y.2 = v := Option.some.inj h
      simp [← hy]
    · simp only [lookupId] at h
      rw [if_neg hy] at h
      obtain ⟨j, hj⟩ := ih h
      exact ⟨j + 1, by simpa using hj⟩

theorem eraseId_sublist (nodes : List (Nat × α)) (id : Nat) :
    List.Sublist (eraseId nodes id) nodes := by
  induction nodes with
  | nil => simp [eraseId]
  | cons x rest ih =>
    by_cases hx : x.1 = id
    · rw [eraseId, if_pos hx]
      exact List.sublist_cons_self x rest
    · simpa [eraseId, hx] using List.Sublist.cons₂ x ih

theorem mem_eraseId_fst {nodes : List (Nat × α)} {a id : Nat}
    (h : a ∈ (eraseId nodes id).map Prod.fst) : a ∈ nodes.map Prod.fst :=
  ((eraseId_sublist nodes id).map Prod.fst).subset h

theorem not_mem_eraseId_fst {nodes : List (Nat × α)} (nd : (nodes.map Prod.fst).Nodup)
    (id : Nat) : id ∉ (eraseId nodes id).map Prod.fst := by
  induction nodes with
  | nil => simp [eraseId]
  | cons x rest ih =>
    rw [List.map_cons, List.nodup_cons] at nd
    by_cases hx : x.1 = id
    · rw [eraseId, if_pos hx]
      exact hx ▸ nd.1
    · rw [eraseId, if_neg hx]
      simp only [List.map_cons, List.mem_cons, not_or]
      exact ⟨fun he => hx he.symm, ih nd.2⟩

theorem IndexList.lookup_mem_fst {l : IndexList α} {id : Nat} {v : α}
    (h : lookupId l.nodes id = some v) : id ∈ l.nodes.map Prod.fst := by
  obtain ⟨j, hj⟩ := lookupId_some h
  simpa using List.mem_map_of_mem Prod.fst (List.getElem?_mem hj)

theorem IndexList.remove_wf {l : IndexList α} (wf : l.WF) (i : Option Nat) :
    (l.remove i).2.WF := by
  cases i with
  | none => exact wf
  | some id =>
    cases hlook : lookupId l.nodes id with
    | none => simpa [IndexList.remove, hlook] using wf
    | some v =>
      have hlive : id ∈ l.nodes.map Prod.fst := IndexList.lookup_mem_fst hlook
      simp only [IndexList.remove, hlook]
      refine ⟨?_, ?_, ?_, ?_, ?_⟩
      · exact wf.nodup_nodes.sublist ((eraseId_sublist l.nodes id).map Prod.fst)
      · rw [List.nodup_cons]
        refine ⟨fun hm => wf.free_not_live id hm hlive, wf.nodup_free⟩
      · intro a hm
        exact wf.nodes_lt a (mem_eraseId_fst hm)
      · intro a hm
        rw [List.mem_cons] at hm
        rcases hm with rfl | hm
        · exact wf.nodes_lt a hlive
        · exact wf.free_lt a hm
      · intro a hm hlive'
        rw [List.mem_cons] at hm
        rcases hm with rfl | hm
        · exact not_mem_eraseId_fst wf.nodup_nodes a hlive'
        · exact wf.free_not_live a hm (mem_eraseId_fst hlive')

theorem IndexList.shift_wf {l : IndexList α} (wf : l.WF) (i : Option Nat) :
    (l.shift_index_to_front i).2.WF := by
  cases i with
  | none => exact wf
  | some id =>
    cases hlook : lookupId l.nodes id with
    | none => simpa [IndexList.shift_index_to_front, hlook] using wf
    | some v =>
      have hlive : id ∈ l.nodes.map Prod.fst := IndexList.lookup_mem_fst hlook
      simp only [IndexList.shift_index_to_front, hlook]
      refine ⟨?_, wf.nodup_free, ?_, wf.free_lt, ?_⟩
      · rw [List.map_cons, List.nodup_cons]
        exact ⟨not_mem_eraseId_fst wf.nodup_nodes id,
          wf.nodup_nodes.sublist ((eraseId_sublist l.nodes id).map Prod.fst)⟩
      · rintro a hm
        rw [List.map_cons, List.mem_cons] at hm
        rcases hm with rfl | hm
        · exact wf.nodes_lt a hlive
        · exact wf.nodes_lt a (mem_eraseId_fst hm)
      · intro a hm hlive'
        rw [List.map_cons, List.mem_cons] at hlive'
        rcases hlive' with rfl | hlive'
        · exact wf.free_not_live a hm hlive
        · exact wf.free_not_live a hm (mem_eraseId_fst hlive')

theorem IndexList.get_eq_some {l : IndexList α} {i : Option Nat} {v : α}
    (h : l.get i = some v) :
    ∃ (id j : Nat), i = some id ∧ l.nodes[j]? = some (id, v) := by
  cases i with
  | none => simp [IndexList.get] at h
  | some id =>
    obtain ⟨j, hj⟩ := lookupId_some (by simpa [IndexList.get] using h)
    exact ⟨id, j, rfl, hj⟩

theorem IndexList.get_getElem? {l : IndexList α} (nd : (l.nodes.map Prod.fst).Nodup)
    {j id : Nat} {v : α} (h : l.nodes[j]? = some (id, v)) :
    l.get (some id) = some v := by
  simpa [IndexList.get] using lookupId_getElem? nd (x := (id, v)) h

theorem IndexList.prev_index_of_not_live {l : IndexList α} {i : Option Nat}
    (h : ∀ id, i = some id → id ∉ l.nodes.map Prod.fst) :
    l.prev_index i = none := by
  cases i with
  | none => rfl
  | some id =>
    have : posOf l.nodes id = none := posOf_eq_none_iff.mpr (h id rfl)
    simp [IndexList.prev_index, this]

/-- Both no-op triggers of `shift_to_front` (index not live, or index empty)
make `prev_index` empty, hence the function returns the state unchanged. -/
theorem CutoffList.shift_to_front_of_get_none {T : Type} {s : CutoffList T}
    {ind : Option Nat} (h : s.get ind = none) : s.shift_to_front ind = s := by
  have hprev : s.list.prev_index ind = none := by
    refine IndexList.prev_index_of_not_live fun id hid => ?_
    subst hid
    intro hmem
    have hl : lookupId s.list.nodes id = none := by
      rw [CutoffList.get, IndexList.get] at h
      simpa using h
    exact (lookupId_eq_none_iff.mp hl) hmem
  rw [CutoffList.shift_to_front]
  simp [hprev]

/-- Shifting the current first element is a no-op: its `prev_index` is
empty. -/
theorem CutoffList.shift_to_front_first_eq {T : Type} (s : CutoffList T) :
    s.shift_to_front s.first_index = s := by
  have hprev : s.list.prev_index s.first_index = none := by
    cases hn : s.list.nodes with
    | nil =>
      apply IndexList.prev_index_of_not_live
      intro id hid
      simp [CutoffList.first_index, IndexList.first_index, hn] at hid
    | cons x rest =>
      have hfirst : s.first_index = some x.1 := by
        simp [CutoffList.first_index, IndexList.first_index, hn]
      rw [hfirst, IndexList.prev_index]
      have : posOf s.list.nodes x.1 = some 0 := by
        rw [hn, posOf, if_pos rfl]
      simp [this]
  rw [CutoffList.shift_to_front]
  simp [hprev]

end Invariant

/-! Exact specifications of the cache-repair loops. -/

section LoopSpecs

variable {T : Type}

theorem getElem?_fst_congr {l l' : IndexList (Entry T)}
    (h : l.nodes.map Prod.fst = l'.nodes.map Prod.fst) (j : Nat) :
    (l.nodes[j]?).map Prod.fst = (l'.nodes[j]?).map Prod.fst := by
  rw [map_fst_getElem?, map_fst_getElem?, h]

theorem IndexList.get_mut_length {α : Type} (l : IndexList α) (i : Option Nat)
    (f : α → α) : (l.get_mut i f).nodes.length = l.nodes.length := by
  have := congrArg List.length (IndexList.get_mut_nodes_map_fst l i f)
  simpa using this

/-- Exact description of `insert_first_loop` when every cache entry points one
rank past where the invariant will want it (the state right after the new node
was prepended): each processed entry is retargeted to the node one rank
earlier, and the node at rank `i` has its counter incremented once per cutoff
equal to `i`. -/
theorem insert_first_loop_spec (n : Nat) (zs : List (Nat × Option Nat)) :
    ∀ L : IndexList (Entry T),
    (L.nodes.map Prod.fst).Nodup →
    L.nodes.length = n + 1 →
    (∀ pi ∈ zs, pi.2 = (L.nodes[pi.1 + 1]?).map Prod.fst) →
    List.Sorted (· ≤ ·) (zs.map Prod.fst) →
    (CutoffList.insert_first_loop n L zs).1 =
        zs.map (fun pi => (L.nodes[pi.1]?).map Prod.fst) ∧
    ∀ i : Nat, (CutoffList.insert_first_loop n L zs).2.nodes[i]? =
        (L.nodes[i]?).map (fun x =>
          (x.1, Entry.mk x.2.value
            (x.2.preceding_cutoffs + (zs.map Prod.fst).count i))) := by
  induction zs with
  | nil =>
    intro L nd hlen hzs hsorted
    refine ⟨by simp [CutoffList.insert_first_loop], fun i => ?_⟩
    simp only [CutoffList.insert_first_loop, List.map_nil, List.count_nil]
    cases L.nodes[i]? with
    | none => rfl
    | some x => rfl
  | cons pi rest ih =>
    obtain ⟨p, ind⟩ := pi
    intro L nd hlen hzs hsorted
    have hind : ind = (L.nodes[p + 1]?).map Prod.fst :=
      hzs (p, ind) (List.mem_cons_self _ _)
    have hzs' : ∀ pi ∈ rest, pi.2 = (L.nodes[pi.1 + 1]?).map Prod.fst :=
      fun pi hm => hzs pi (List.mem_cons_of_mem _ hm)
    rw [List.map_cons, List.sorted_cons] at hsorted
    by_cases hp : p + 1 < L.nodes.length
    · -- the entry is non-empty: retarget it one step backward
      have hx : L.nodes[p + 1]? = some (L.nodes[p + 1]) := List.getElem?_eq_getElem hp
      set x := L.nodes[p + 1] with hxdef
      have hpl : p < L.nodes.length := Nat.lt_of_succ_lt hp
      have hy : L.nodes[p]? = some (L.nodes[p]) := List.getElem?_eq_getElem hpl
      set y := L.nodes[p] with hydef
      have hindx : ind = some x.1 := by rw [hind, hx]; rfl
      have hposOf : posOf L.nodes x.1 = some (p + 1) := posOf_getElem? nd hx
      have hprev : L.prev_index ind = some y.1 := by
        rw [hindx, IndexList.prev_index_some, hposOf]
        show (L.nodes[p]?).map Prod.fst = some y.1
        rw [hy]
        rfl
      set f : Entry T → Entry T :=
        fun e => { e with preceding_cutoffs := e.preceding_cutoffs + 1 } with hf
      set L' := L.get_mut (L.prev_index ind) f with hL'
      have hL'point : ∀ i : Nat, L'.nodes[i]? =
          if i = p then some (y.1, f y.2) else L.nodes[i]? := by
        intro i
        rw [hL', hprev, IndexList.get_mut]
        exact getElem?_mapId_eq nd hy i
      have hfst : L'.nodes.map Prod.fst = L.nodes.map Prod.fst := by
        rw [hL']
        exact IndexList.get_mut_nodes_map_fst L _ f
      have hfstpt := getElem?_fst_congr hfst
      have hnd' : (L'.nodes.map Prod.fst).Nodup := hfst ▸ nd
      have hlen' : L'.nodes.length = n + 1 := by
        rw [hL', IndexList.get_mut_length]
        exact hlen
      have hzs'' : ∀ pi ∈ rest, pi.2 = (L'.nodes[pi.1 + 1]?).map Prod.fst := by
        intro pi hm
        rw [hzs' pi hm, hfstpt]
      obtain ⟨ihA, ihB⟩ := ih L' hnd' hlen' hzs'' hsorted.2
      have hloop : CutoffList.insert_first_loop n L ((p, ind) :: rest) =
          (L.prev_index ind :: (CutoffList.insert_first_loop n L' rest).1,
            (CutoffList.insert_first_loop n L' rest).2) := by
        rw [CutoffList.insert_first_loop, if_pos (by rw [hindx]; rfl)]
      constructor
      · rw [hloop]
        simp only [List.map_cons]
        congr 1
        · rw [hprev, hy]
          rfl
        · rw [ihA]
          refine List.map_congr_left fun pi hm => ?_
          rw [hfstpt]
      · intro i
        rw [hloop]
        simp only
        rw [ihB i, hL'point i]
        by_cases hip : i = p
        · subst hip
          rw [if_pos rfl, hy]
          simp only [List.map_cons, List.count_cons, beq_self_eq_true, if_true]
          have harith : y.2.preceding_cutoffs + 1 + (rest.map Prod.fst).count i =
              y.2.preceding_cutoffs + ((rest.map Prod.fst).count i + 1) := by omega
          simp only [Option.map, hf, harith]
        · have hpi : (p == i) = false := by
            simp only [beq_eq_false_iff_ne, ne_eq]
            exact fun he => hip (he.symm)
          rw [if_neg hip]
          simp only [List.map_cons, List.count_cons, hpi, Bool.false_eq_true, if_false,
            Nat.add_zero]
    · -- the entry is empty
      have hnone : L.nodes[p + 1]? = none := by
        rw [List.getElem?_eq_none_iff]
        omega
      have hindnone : ind = none := by rw [hind, hnone]; rfl
      by_cases hpn : p = n
      · -- the cutoff sits exactly at the old length: point it at the last node
        subst hpn
        have hpl : p < L.nodes.length := by omega
        have hy : L.nodes[p]? = some (L.nodes[p]) := List.getElem?_eq_getElem hpl
        set y := L.nodes[p] with hydef
        have hlast : L.last_index = some y.1 := by
          rw [IndexList.last_index, List.getLast?_eq_getElem?, hlen]
          simp only [Nat.add_sub_cancel, hy]
          rfl
        set f : Entry T → Entry T :=
          fun e => { e with preceding_cutoffs := e.preceding_cutoffs + 1 } with hf
        set L' := L.get_mut L.last_index f with hL'
        have hL'point : ∀ i : Nat, L'.nodes[i]? =
            if i = p then some (y.1, f y.2) else L.nodes[i]? := by
          intro i
          rw [hL', hlast, IndexList.get_mut]
          exact getElem?_mapId_eq nd hy i
        have hfst : L'.nodes.map Prod.fst = L.nodes.map Prod.fst := by
          rw [hL']
          exact IndexList.get_mut_nodes_map_fst L _ f
        have hfstpt := getElem?_fst_congr hfst
        have hnd' : (L'.nodes.map Prod.fst).Nodup := hfst ▸ nd
        have hlen' : L'.nodes.length = p + 1 := by
          rw [hL', IndexList.get_mut_length]
          exact hlen
        have hzs'' : ∀ pi ∈ rest, pi.2 = (L'.nodes[pi.1 + 1]?).map Prod.fst := by
          intro pi hm
          rw [hzs' pi hm, hfstpt]
        obtain ⟨ihA, ihB⟩ := ih L' hnd' hlen' hzs'' hsorted.2
        have hloop : CutoffList.insert_first_loop p L ((p, ind) :: rest) =
            (L.last_index :: (CutoffList.insert_first_loop p L' rest).1,
              (CutoffList.insert_first_loop p L' rest).2) := by
          rw [CutoffList.insert_first_loop]
          rw [if_neg (by rw [hindnone]; simp), if_pos rfl]
        constructor
        · rw [hloop]
          simp only [List.map_cons]
          congr 1
          · rw [hlast, hy]
            rfl
          · rw [ihA]
            refine List.map_congr_left fun pi hm => ?_
            rw [hfstpt]
        · intro i
          rw [hloop]
          simp only
          rw [ihB i, hL'point i]
          by_cases hip : i = p
          · subst hip
            rw [if_pos rfl, hy]
            simp only [List.map_cons, List.count_cons, beq_self_eq_true, if_true]
            have harith : y.2.preceding_cutoffs + 1 + (rest.map Prod.fst).count i =
                y.2.preceding_cutoffs + ((rest.map Prod.fst).count i + 1) := by omega
            simp only [Option.map, hf, harith]
          · have hpi' : (p == i) = false := by
              simp only [beq_eq_false_iff_ne, ne_eq]
              exact fun he => hip he.symm
            rw [if_neg hip]
            simp only [List.map_cons, List.count_cons, hpi', Bool.false_eq_true, if_false,
              Nat.add_zero]
      · -- the cutoff is past the new length: stop
        have hgt : n < p := by omega
        have hloop : CutoffList.insert_first_loop n L ((p, ind) :: rest) =
            (ind :: rest.map Prod.snd, L) := by
          rw [CutoffList.insert_first_loop]
          rw [if_neg (by rw [hindnone]; simp), if_neg hpn]
        constructor
        · rw [hloop]
          simp only [List.map_cons]
          congr 1
          · rw [hindnone]
            have : L.nodes[p]? = none := by
              rw [List.getElem?_eq_none_iff]
              omega
            rw [this]
            rfl
          · refine List.map_congr_left fun pi hm => ?_
            have hge : p ≤ pi.1 := hsorted.1 pi.1 (List.mem_map_of_mem Prod.fst hm)
            have h1 : L.nodes[pi.1 + 1]? = none := by
              rw [List.getElem?_eq_none_iff]
              omega
            have h2 : L.nodes[pi.1]? = none := by
              rw [List.getElem?_eq_none_iff]
              omega
            rw [hzs' pi hm, h1, h2]
        · intro i
          rw [hloop]
          simp only
          cases hxi : L.nodes[i]? with
          | none => rfl
          | some x =>
            have hil : i < L.nodes.length := by
              by_contra hc
              rw [List.getElem?_eq_none_iff.mpr (by omega)] at hxi
              exact Option.noConfusion hxi
            have hcount : ((p :: rest.map Prod.fst).count i) = 0 := by
              rw [List.count_eq_zero]
              intro hmem
              rcases List.mem_cons.mp hmem with rfl | hmem
              · omega
              · have := hsorted.1 i hmem
                omega
            rw [List.map_cons, hcount]
            rfl

/-- Pointwise effect of `get_mut` at the handle of the node at position `j`:
only position `j` changes. -/
theorem get_mut_at_pos {L : IndexList (Entry T)} (nd : (L.nodes.map Prod.fst).Nodup)
    (j : Nat) (f : Entry T → Entry T) (i : Nat) :
    (L.get_mut ((L.nodes[j]?).map Prod.fst) f).nodes[i]? =
      if i = j then (L.nodes[j]?).map (fun x => (x.1, f x.2)) else L.nodes[i]? := by
  cases hj : L.nodes[j]? with
  | none =>
    simp only [Option.map_none']
    show (L.get_mut none f).nodes[i]? = _
    by_cases hij : i = j
    · subst hij
      rw [if_pos rfl]
      exact hj
    · rw [if_neg hij]
      rfl
  | some x =>
    simp only [Option.map_some']
    show (L.get_mut (some x.1) f).nodes[i]? = _
    rw [IndexList.get_mut]
    rw [getElem?_mapId_eq nd hj i]

/-- Exact description of `shift_to_front_loop`: the moved node (slot id `ι`)
sits at position 0, `prev_ind` is the handle at its former rank `r`, and the
`i`-th processed cache entry points at position `ps i + 1` — except when
`ps i = r`, where it still points at the moved node.  Every processed entry is
retargeted to position `ps i`, whose node gets one counter increment per
occurrence. -/
theorem shift_to_front_loop_spec (r : Nat) (ι : Nat) (prev_ind : Option Nat) :
    ∀ (ps : List Nat) (es : List (Option Nat)) (L : IndexList (Entry T)),
    (L.nodes.map Prod.fst).Nodup →
    (L.nodes[0]?).map Prod.fst = some ι →
    prev_ind = (L.nodes[r]?).map Prod.fst →
    ps.length ≤ es.length →
    List.Forall₂ (fun p e =>
        e = (L.nodes[if p = r then 0 else p + 1]?).map Prod.fst ∧
        (p ≠ r → p + 1 < L.nodes.length))
      ps (es.take ps.length) →
    (CutoffList.shift_to_front_loop prev_ind (some ι) ps.length L es).1 =
        ps.map (fun p => (L.nodes[p]?).map Prod.fst) ++ es.drop ps.length ∧
    ∀ i : Nat,
      (CutoffList.shift_to_front_loop prev_ind (some ι) ps.length L es).2.nodes[i]? =
        (L.nodes[i]?).map (fun x =>
          (x.1, Entry.mk x.2.value (x.2.preceding_cutoffs + ps.count i))) := by
  intro ps
  induction ps with
  | nil =>
    intro es L nd hι hprev hlen hF
    refine ⟨by simp [CutoffList.shift_to_front_loop], fun i => ?_⟩
    simp only [List.length_nil, CutoffList.shift_to_front_loop, List.count_nil]
    cases L.nodes[i]? with
    | none => rfl
    | some x => rfl
  | cons p ps' ih =>
    intro es L nd hι hprev hlen hF
    cases es with
    | nil => simp at hlen
    | cons e es' =>
      rw [List.length_cons, List.take_succ_cons] at hF
      rcases hF with _ | ⟨⟨he, hebound⟩, hF'⟩
      have hlen' : ps'.length ≤ es'.length := by
        simpa using hlen
      -- the retargeted entry, in both branches, is the handle at position p
      have hstep : (if e = some ι then prev_ind else L.prev_index e) =
          (L.nodes[p]?).map Prod.fst := by
        by_cases hpr : p = r
        · subst hpr
          rw [if_pos (by rw [he, if_pos rfl]; exact hι), hprev]
        · rw [he, if_neg hpr]
          have hplt : p + 1 < L.nodes.length := hebound hpr
          have hx : L.nodes[p + 1]? = some (L.nodes[p + 1]) :=
            List.getElem?_eq_getElem hplt
          set x := L.nodes[p + 1] with hxdef
          have hne : ¬((L.nodes[p + 1]?).map Prod.fst = some ι) := by
            rw [hx]
            intro hcontra
            have hx1 : x.1 = ι := by simpa using hcontra
            obtain ⟨w, hw⟩ : ∃ w, L.nodes[0]? = some w := by
              cases h0 : L.nodes[0]? with
              | none => rw [h0] at hι; simp at hι
              | some w => exact ⟨w, rfl⟩
            have hw1 : w.1 = ι := by
              rw [hw] at hι
              simpa using hι
            have hp1 : (L.nodes.map Prod.fst)[p + 1]? = some ι := by
              rw [← map_fst_getElem?, hx, Option.map_some', hx1]
            have hp0 : (L.nodes.map Prod.fst)[0]? = some ι := by
              rw [← map_fst_getElem?, hw, Option.map_some', hw1]
            obtain ⟨hb1, he1⟩ := List.getElem?_eq_some_iff.mp hp1
            obtain ⟨hb0, he0⟩ := List.getElem?_eq_some_iff.mp hp0
            exact Nat.succ_ne_zero p ((List.Nodup.getElem_inj_iff nd).mp (he1.trans he0.symm))
          rw [if_neg hne, hx]
          show L.prev_index (some x.1) = _
          have hposOf : posOf L.nodes x.1 = some (p + 1) := posOf_getElem? nd hx
          rw [IndexList.prev_index_some, hposOf]
      have hloopstep : CutoffList.shift_to_front_loop prev_ind (some ι)
            (p :: ps').length L (e :: es') =
          ((L.nodes[p]?).map Prod.fst ::
              (CutoffList.shift_to_front_loop prev_ind (some ι) ps'.length
                (L.get_mut ((L.nodes[p]?).map Prod.fst)
                  (fun en => { en with preceding_cutoffs := en.preceding_cutoffs + 1 }))
                es').1,
            (CutoffList.shift_to_front_loop prev_ind (some ι) ps'.length
              (L.get_mut ((L.nodes[p]?).map Prod.fst)
                (fun en => { en with preceding_cutoffs := en.preceding_cutoffs + 1 }))
              es').2) := by
        rw [List.length_cons, CutoffList.shift_to_front_loop]
        rw [hstep]
      set f : Entry T → Entry T :=
        fun en => { en with preceding_cutoffs := en.preceding_cutoffs + 1 } with hf
      set L' := L.get_mut ((L.nodes[p]?).map Prod.fst) f with hL'
      have hL'point : ∀ i : Nat, L'.nodes[i]? =
          if i = p then (L.nodes[p]?).map (fun x => (x.1, f x.2)) else L.nodes[i]? :=
        get_mut_at_pos nd p f
      have hfst : L'.nodes.map Prod.fst = L.nodes.map Prod.fst :=
        IndexList.get_mut_nodes_map_fst L _ f
      have hfstpt := getElem?_fst_congr hfst
      have hnd' : (L'.nodes.map Prod.fst).Nodup := hfst ▸ nd
      have hι' : (L'.nodes[0]?).map Prod.fst = some ι := by rw [hfstpt]; exact hι
      have hprev' : prev_ind = (L'.nodes[r]?).map Prod.fst := by
        rw [hfstpt]
        exact hprev
      have hF'' : List.Forall₂ (fun p e =>
          e = (L'.nodes[if p = r then 0 else p + 1]?).map Prod.fst ∧
          (p ≠ r → p + 1 < L'.nodes.length)) ps' (es'.take ps'.length) := by
        refine List.Forall₂.imp ?_ hF'
        intro a b hab
        refine ⟨by rw [hfstpt]; exact hab.1, fun hne => ?_⟩
        rw [IndexList.get_mut_length]
        exact hab.2 hne
      obtain ⟨ihA, ihB⟩ := ih es' L' hnd' hι' hprev' hlen' hF''
      constructor
      · rw [hloopstep]
        simp only [List.map_cons, List.drop_succ_cons]
        congr 1
        rw [ihA]
        congr 1
        refine List.map_congr_left fun a hm => ?_
        rw [hfstpt]
      · intro i
        rw [hloopstep]
        simp only
        rw [ihB i, hL'point i]
        by_cases hip : i = p
        · subst hip
          rw [if_pos rfl]
          cases hy : L.nodes[i]? with
          | none => rfl
          | some y =>
            simp only [Option.map_some', List.count_cons, beq_self_eq_true, if_true, hf]
            have harith : y.2.preceding_cutoffs + 1 + ps'.count i =
                y.2.preceding_cutoffs + (ps'.count i + 1) := by omega
            simp only [harith]
        · rw [if_neg hip]
          have hpi : (p == i) = false := by
            simp only [beq_eq_false_iff_ne, ne_eq]
            exact fun hc => hip hc.symm
          simp only [List.count_cons, hpi, Bool.false_eq_true, if_false, Nat.add_zero]

/-- Exact description of `remove_after_loop`: the `i`-th entry points at
position `qs i` of the post-removal store (or past its end); it is advanced to
the next position, and the pointed node's counter is decremented once per
occurrence of its position. -/
theorem remove_after_loop_spec :
    ∀ (qs : List Nat) (es : List (Option Nat)) (L : IndexList (Entry T)),
    (L.nodes.map Prod.fst).Nodup →
    List.Sorted (· ≤ ·) qs →
    List.Forall₂ (fun q e => e = (L.nodes[q]?).map Prod.fst) qs es →
    (CutoffList.remove_after_loop L es).1 =
        qs.map (fun q => (L.nodes[q + 1]?).map Prod.fst) ∧
    ∀ i : Nat, (CutoffList.remove_after_loop L es).2.nodes[i]? =
        (L.nodes[i]?).map (fun x =>
          (x.1, Entry.mk x.2.value (x.2.preceding_cutoffs - qs.count i))) := by
  intro qs
  induction qs with
  | nil =>
    intro es L nd hsorted hF
    obtain rfl : es = [] := (List.forall₂_nil_left_iff.mp hF)
    refine ⟨by simp [CutoffList.remove_after_loop], fun i => ?_⟩
    simp only [CutoffList.remove_after_loop, List.count_nil]
    cases L.nodes[i]? with
    | none => rfl
    | some x => rfl
  | cons q qs' ih =>
    intro es L nd hsorted hF
    cases es with
    | nil => cases hF
    | cons e es' =>
    rcases hF with _ | ⟨he, hF'⟩
    rw [List.sorted_cons] at hsorted
    by_cases hq : q < L.nodes.length
    · -- non-empty entry: decrement and advance
      have hx : L.nodes[q]? = some (L.nodes[q]) := List.getElem?_eq_getElem hq
      set x := L.nodes[q] with hxdef
      have hex : e = some x.1 := by rw [he, hx]; rfl
      set f : Entry T → Entry T :=
        fun en => { en with preceding_cutoffs := en.preceding_cutoffs - 1 } with hf
      set L' := L.get_mut e f with hL'
      have hL'eq : L' = L.get_mut ((L.nodes[q]?).map Prod.fst) f := by
        rw [hL', hex, hx]
        rfl
      have hL'point : ∀ i : Nat, L'.nodes[i]? =
          if i = q then (L.nodes[q]?).map (fun x => (x.1, f x.2)) else L.nodes[i]? := by
        rw [hL'eq]
        exact get_mut_at_pos nd q f
      have hfst : L'.nodes.map Prod.fst = L.nodes.map Prod.fst := by
        rw [hL']
        exact IndexList.get_mut_nodes_map_fst L _ f
      have hfstpt := getElem?_fst_congr hfst
      have hnd' : (L'.nodes.map Prod.fst).Nodup := hfst ▸ nd
      have hposOf : posOf L'.nodes x.1 = some q := by
        rw [posOf_congr hfst x.1]
        exact posOf_getElem? nd hx
      have hnext : L'.next_index e = (L.nodes[q + 1]?).map Prod.fst := by
        rw [hex, IndexList.next_index_some, hposOf]
        exact hfstpt (q + 1)
      have hF'' : List.Forall₂ (fun q e => e = (L'.nodes[q]?).map Prod.fst) qs' es' := by
        refine List.Forall₂.imp ?_ hF'
        intro a b hab
        rw [hab, hfstpt]
      obtain ⟨ihA, ihB⟩ := ih es' L' hnd' hsorted.2 hF''
      have hloopstep : CutoffList.remove_after_loop L (e :: es') =
          (L'.next_index e :: (CutoffList.remove_after_loop L' es').1,
            (CutoffList.remove_after_loop L' es').2) := by
        rw [CutoffList.remove_after_loop]
        rw [if_neg (by rw [hex]; simp)]
      constructor
      · rw [hloopstep]
        dsimp only
        rw [hnext, ihA, List.map_cons]
        congr 1
        refine List.map_congr_left fun a hm => ?_
        rw [hfstpt]
      · intro i
        rw [hloopstep]
        dsimp only
        rw [ihB i, hL'point i]
        by_cases hiq : i = q
        · subst hiq
          rw [if_pos rfl, hx]
          simp only [Option.map_some', List.count_cons, beq_self_eq_true, if_true, hf]
          have harith : x.2.preceding_cutoffs - 1 - qs'.count i =
              x.2.preceding_cutoffs - (qs'.count i + 1) := by omega
          simp only [harith]
        · rw [if_neg hiq]
          have hqi : (q == i) = false := by
            simp only [beq_eq_false_iff_ne, ne_eq]
            exact fun hc => hiq hc.symm
          simp only [List.count_cons, hqi, Bool.false_eq_true, if_false, Nat.add_zero]
    · -- empty entry: stop; sortedness makes all later targets empty too
      have hxnone : L.nodes[q]? = none := by
        rw [List.getElem?_eq_none_iff]
        omega
      have hen : e = none := by rw [he, hxnone]; rfl
      have hloopstep : CutoffList.remove_after_loop L (e :: es') =
          (e :: es', L) := by
        rw [CutoffList.remove_after_loop, if_pos (by rw [hen]; rfl)]
      constructor
      · rw [hloopstep]
        dsimp only
        rw [List.map_cons]
        congr 1
        · rw [hen]
          have : L.nodes[q + 1]? = none := by
            rw [List.getElem?_eq_none_iff]
            omega
          rw [this]
          rfl
        · -- the remaining entries are all empty, as are their targets
          have hmem2 : ∀ pe ∈ qs'.zip es', pe.2 = (L.nodes[pe.1 + 1]?).map Prod.fst := by
            intro pe hm
            obtain ⟨a, b⟩ := pe
            have h1 : b = (L.nodes[a]?).map Prod.fst :=
              (List.forall₂_iff_zip.mp hF').2 hm
            have hge : q ≤ a := hsorted.1 a (List.of_mem_zip hm).1
            have h2 : L.nodes[a]? = none := by
              rw [List.getElem?_eq_none_iff]
              omega
            have h3 : L.nodes[a + 1]? = none := by
              rw [List.getElem?_eq_none_iff]
              omega
            show b = (L.nodes[a + 1]?).map Prod.fst
            rw [h1, h2, h3]
          have hzip : es' = (qs'.zip es').map Prod.snd := by
            have hlen := hF'.length_eq
            exact (List.map_snd_zip qs' es' (le_of_eq hlen.symm)).symm
          have hzipfst : qs' = (qs'.zip es').map Prod.fst := by
            have hlen := hF'.length_eq
            exact (List.map_fst_zip qs' es' (le_of_eq hlen)).symm
          rw [hzip]
          conv_rhs => rw [hzipfst]
          rw [List.map_map]
          refine List.map_congr_left fun pe hm => ?_
          simp only [Function.comp]
          exact hmem2 pe hm
      · intro i
        rw [hloopstep]
        dsimp only
        cases hxi : L.nodes[i]? with
        | none => rfl
        | some x =>
          have hil : i < L.nodes.length := by
            by_contra hc
            rw [List.getElem?_eq_none_iff.mpr (by omega)] at hxi
            exact Option.noConfusion hxi
          have hcount : ((q :: qs').count i) = 0 := by
            rw [List.count_eq_zero]
            intro hmem
            rcases List.mem_cons.mp hmem with rfl | hmem
            · omega
            · have := hsorted.1 i hmem
              omega
          rw [hcount]
          rfl

/-- Exact description of the reversed-prefix loop of `remove`: a leading run
of entries equal to the removed handle is replaced by the recorded successor,
and the first differing entry stops the scan. -/
theorem remove_before_loop_spec (index next_index : Option Nat) :
    ∀ (a : Nat) (b : List (Option Nat)),
    (∀ e, b.head? = some e → e ≠ index) →
    CutoffList.remove_before_loop index next_index
        (List.replicate a index ++ b) =
      List.replicate a next_index ++ b := by
  intro a
  induction a with
  | zero =>
    intro b hb
    cases b with
    | nil => rfl
    | cons e bs =>
      have : e ≠ index := hb e rfl
      simp only [List.replicate_zero, List.nil_append, CutoffList.remove_before_loop]
      rw [if_neg this]
  | succ a ih =>
    intro b hb
    simp only [List.replicate_succ, List.cons_append, CutoffList.remove_before_loop]
    simp [ih b hb]

/-- Exact description of the cache-update loop of `insert_last` over a sorted
tail whose cutoffs are all `>= new_pos`: the run of cutoffs equal to
`new_pos` is set to the new handle and nothing else changes. -/
theorem insert_last_set_spec (new_pos : Nat) (new_index : Option Nat) :
    ∀ zs : List (Nat × Option Nat),
    List.Sorted (· ≤ ·) (zs.map Prod.fst) →
    (∀ pi ∈ zs, new_pos ≤ pi.1) →
    CutoffList.insert_last_set new_pos new_index zs =
      zs.map (fun pi => if pi.1 = new_pos then new_index else pi.2) := by
  intro zs
  induction zs with
  | nil => intro _ _; rfl
  | cons pi rest ih =>
    obtain ⟨c, ind⟩ := pi
    intro hsorted hge
    rw [List.map_cons, List.sorted_cons] at hsorted
    by_cases hc : c = new_pos
    · rw [CutoffList.insert_last_set, if_pos hc, List.map_cons]
      simp only [hc, if_pos rfl]
      congr 1
      refine ih hsorted.2 fun pi hm => ?_
      calc new_pos = c := hc.symm
        _ ≤ pi.1 := hsorted.1 pi.1 (List.mem_map_of_mem Prod.fst hm)
    · rw [CutoffList.insert_last_set, if_neg hc, List.map_cons]
      simp only [if_neg hc]
      congr 1
      refine List.map_congr_left fun pi hm => ?_
      have h1 : new_pos ≤ c := hge (c, ind) (List.mem_cons_self _ _)
      have h2 : c ≤ pi.1 := hsorted.1 pi.1 (List.mem_map_of_mem Prod.fst hm)
      have : ¬pi.1 = new_pos := by omega
      rw [if_neg this]

/-- Exact description of the scanning loop of `insert_last` on a sorted
suffix starting at absolute index `q0`: the count is the number of cutoffs
`<= new_pos`, and the recorded index is the absolute index of the first cutoff
equal to `new_pos`, if any. -/
theorem insert_last_scan_spec (new_pos : Nat) :
    ∀ (l : List Nat) (q0 : Nat), List.Sorted (· ≤ ·) l →
    (CutoffList.insert_last_scan new_pos l q0).1 =
        l.countP (fun c => decide (c ≤ new_pos)) ∧
    ((CutoffList.insert_last_scan new_pos l q0).2 = none →
        ∀ c ∈ l, c ≠ new_pos) ∧
    ∀ q : Nat, (CutoffList.insert_last_scan new_pos l q0).2 = some q →
      q0 ≤ q ∧ l[q - q0]? = some new_pos ∧
      ∀ (j : Nat) (c : Nat), j < q - q0 → l[j]? = some c → c ≠ new_pos := by
  intro l
  induction l with
  | nil =>
    intro q0 _
    refine ⟨rfl, fun _ c hc => absurd hc (List.not_mem_nil c), fun q hq => ?_⟩
    simp [CutoffList.insert_last_scan] at hq
  | cons c rest ih =>
    intro q0 hsorted
    rw [List.sorted_cons] at hsorted
    obtain ⟨ih1, ih2, ih3⟩ := ih (q0 + 1) hsorted.2
    rcases Nat.lt_trichotomy c new_pos with hlt | heq | hgt
    · have hc1 : c < new_pos := hlt
      have hscan : CutoffList.insert_last_scan new_pos (c :: rest) q0 =
          ((CutoffList.insert_last_scan new_pos rest (q0 + 1)).1 + 1,
            (CutoffList.insert_last_scan new_pos rest (q0 + 1)).2) := by
        rw [CutoffList.insert_last_scan, if_pos hc1]
      refine ⟨?_, ?_, ?_⟩
      · rw [hscan, ih1, List.countP_cons]
        have : decide (c ≤ new_pos) = true := by
          simp only [decide_eq_true_eq]
          omega
        rw [this]
        simp
      · intro hnone a ha
        rw [hscan] at hnone
        rcases List.mem_cons.mp ha with rfl | ha
        · omega
        · exact ih2 hnone a ha
      · intro q hq
        rw [hscan] at hq
        obtain ⟨hq1, hq2, hq3⟩ := ih3 q hq
        refine ⟨by omega, ?_, ?_⟩
        · have : q - q0 = (q - (q0 + 1)) + 1 := by omega
          rw [this, List.getElem?_cons_succ]
          exact hq2
        · intro j a hj ha
          cases j with
          | zero =>
            simp only [List.getElem?_cons_zero, Option.some.injEq] at ha
            omega
          | succ j =>
            rw [List.getElem?_cons_succ] at ha
            exact hq3 j a (by omega) ha
    · have hscan : CutoffList.insert_last_scan new_pos (c :: rest) q0 =
          ((CutoffList.insert_last_scan new_pos rest (q0 + 1)).1 + 1, some q0) := by
        rw [CutoffList.insert_last_scan, if_neg (by omega), if_pos heq]
      refine ⟨?_, ?_, ?_⟩
      · rw [hscan, ih1, List.countP_cons]
        have : decide (c ≤ new_pos) = true := by
          simp only [decide_eq_true_eq]
          omega
        rw [this]
        simp
      · intro hnone
        rw [hscan] at hnone
        exact absurd hnone (Option.some_ne_none q0)
      · intro q hq
        rw [hscan] at hq
        obtain rfl : q0 = q := Option.some.inj hq
        refine ⟨le_refl q0, ?_, ?_⟩
        · simp [heq]
        · intro j a hj ha
          omega
    · have hscan : CutoffList.insert_last_scan new_pos (c :: rest) q0 =
          (0, none) := by
        rw [CutoffList.insert_last_scan, if_neg (by omega), if_neg (by omega)]
      refine ⟨?_, ?_, ?_⟩
      · rw [hscan]
        have hz : (c :: rest).countP (fun c => decide (c ≤ new_pos)) = 0 := by
          refine countP_eq_zero_of_forall fun a ha => ?_
          simp only [decide_eq_true_eq]
          rcases List.mem_cons.mp ha with rfl | ha
          · omega
          · have := hsorted.1 a ha
            omega
        rw [hz]
      · intro _ a ha
        rcases List.mem_cons.mp ha with rfl | ha
        · omega
        · have := hsorted.1 a ha
          omega
      · intro q hq
        rw [hscan] at hq
        exact absurd hq (Option.noConfusion)

end LoopSpecs

/-! Specifications of the four public mutating operations. -/

section OpSpecs

variable {T : Type}

theorem count_eq_countP_decide (l : List Nat) (a : Nat) :
    l.count a = l.countP (fun c => decide (c = a)) := by
  rw [List.count_eq_countP]
  exact List.countP_congr fun c _ => by simp

theorem countP_eq_countP_drop (p : Nat → Bool) :
    ∀ (l : List Nat) (z : Nat),
    (∀ (k : Nat) (c : Nat), k < z → l[k]? = some c → p c = false) →
    l.countP p = (l.drop z).countP p := by
  intro l
  induction l with
  | nil => intro z _; simp
  | cons c rest ih =>
    intro z h
    cases z with
    | zero => rfl
    | succ z =>
      have hc : p c = false := h 0 c (Nat.succ_pos z) (by simp)
      rw [List.countP_cons, hc, List.drop_succ_cons]
      rw [ih z fun k a hk ha => h (k + 1) a (by omega) (by simpa using ha)]
      simp

theorem option_map_fst_pair (g : Nat × Entry T → Entry T) (o : Option (Nat × Entry T)) :
    (o.map (fun x => (x.1, g x))).map Prod.fst = o.map Prod.fst := by
  cases o <;> rfl

theorem option_map_keyVal_pc (g : Nat × Entry T → Nat) (o : Option (Nat × Entry T)) :
    (o.map (fun x => (x.1, Entry.mk x.2.value (g x)))).map keyVal = o.map keyVal := by
  cases o <;> rfl

theorem CutoffList.count_leading_zeros_eq (s : CutoffList T)
    (hs : List.Sorted (· ≤ ·) s.cutoff_positions) :
    s.count_leading_zeros = s.cutoff_positions.countP (fun c => decide (c ≤ 0)) :=
  takeWhile_zero_length hs

theorem CutoffList.count_leading_zeros_le (s : CutoffList T) :
    s.count_leading_zeros ≤ s.cutoff_positions.length :=
  (List.takeWhile_sublist _).length_le

theorem CutoffList.lt_leading_zeros_iff {s : CutoffList T}
    (hs : List.Sorted (· ≤ ·) s.cutoff_positions) {q c : Nat}
    (h : s.cutoff_positions[q]? = some c) :
    q < s.count_leading_zeros ↔ c = 0 := by
  rw [CutoffList.count_leading_zeros_eq s hs, sorted_countP_lt_iff hs h 0]
  omega

/-- Everything `insert_first` does, stated against the pre-state: the returned
handle is the freshly allocated slot; the new node sits at rank 0 with counter
equal to the leading-zero count; every old node keeps its id and value, one
rank later; the length grows by one; and the invariant is preserved. -/
theorem CutoffList.insert_first_spec (s : CutoffList T) (v : T) (hInv : s.Inv) :
    (s.insert_first v).1 = some s.list.alloc.1 ∧
    (s.insert_first v).2.cutoff_positions = s.cutoff_positions ∧
    (s.insert_first v).2.Inv ∧
    (s.insert_first v).2.list.nodes[0]? =
      some (s.list.alloc.1, ⟨v, s.count_leading_zeros⟩) ∧
    (∀ i : Nat, ((s.insert_first v).2.list.nodes[i + 1]?).map keyVal =
      (s.list.nodes[i]?).map keyVal) ∧
    (s.insert_first v).2.len = s.len + 1 ∧
    (s.insert_first v).2.list.free = s.list.alloc.2.1 ∧
    (s.insert_first v).2.list.next_id = s.list.alloc.2.2 := by
  obtain ⟨wf, len_eq, sorted, count_ok, cache_ok⟩ := hInv
  set n := s.list.len with hn
  set z := s.count_leading_zeros with hz
  set a := s.list.alloc.1 with ha
  set L0 := (s.list.insert_first (⟨v, z⟩ : Entry T)).2 with hL0
  have hL0nodes : L0.nodes = (a, (⟨v, z⟩ : Entry T)) :: s.list.nodes := rfl
  have hwf0 : L0.WF := IndexList.insert_first_wf wf _
  set zipped := s.cutoff_positions.zip s.following_ind with hzipped
  set m := s.cutoff_positions.length with hm
  have hziplen : zipped.length = m := by
    rw [hzipped, List.length_zip, len_eq]
    exact Nat.min_self m
  have hzm : z ≤ m := CutoffList.count_leading_zeros_le s
  set zs := zipped.drop z with hzs
  -- hypotheses of the loop specification
  have hnd0 : (L0.nodes.map Prod.fst).Nodup := hwf0.nodup_nodes
  have hlen0 : L0.nodes.length = n + 1 := by
    rw [hL0nodes]
    rfl
  have hzsmem : ∀ pi ∈ zs, ∃ q : Nat, z ≤ q ∧ s.cutoff_positions[q]? = some pi.1 ∧
      s.following_ind[q]? = some pi.2 := by
    intro pi hm'
    obtain ⟨k, hk⟩ := List.mem_iff_getElem?.mp hm'
    rw [hzs, List.getElem?_drop] at hk
    obtain ⟨h1, h2⟩ := List.getElem?_zip_eq_some.mp hk
    exact ⟨z + k, Nat.le_add_right z k, h1, h2⟩
  have hent : ∀ pi ∈ zs, pi.2 = (L0.nodes[pi.1 + 1]?).map Prod.fst := by
    intro pi hm'
    obtain ⟨q, hq1, hq2, hq3⟩ := hzsmem pi hm'
    have := cache_ok q pi.1 hq2
    rw [hq3] at this
    have hpi2 : pi.2 = (s.list.nodes[pi.1]?).map Prod.fst := Option.some.inj this
    rw [hpi2, hL0nodes, List.getElem?_cons_succ]
  have hzsfst : zs.map Prod.fst = s.cutoff_positions.drop z := by
    rw [hzs, List.map_drop]
    congr 1
    rw [hzipped]
    exact List.map_fst_zip _ _ (le_of_eq len_eq.symm)
  have hsortzs : List.Sorted (· ≤ ·) (zs.map Prod.fst) := by
    rw [hzsfst]
    exact sorted.sublist (List.drop_sublist z _)
  obtain ⟨specA, specB⟩ := insert_first_loop_spec n zs L0 hnd0 hlen0 hent hsortzs
  obtain ⟨sk1, sk2, sk3, sk4, sk5⟩ := insert_first_loop_skel n zs L0
  set r := CutoffList.insert_first_loop n L0 zs with hrdef
  have hdef : s.insert_first v =
      (some a, { s with
        following_ind := (zipped.take z).map (fun _ => some a) ++ r.1
        list := r.2 }) := rfl
  have hheadlen : ((zipped.take z).map (fun _ => (some a : Option Nat))).length = z := by
    rw [List.length_map]
    refine List.length_take_of_le ?_
    rw [hziplen]
    exact hzm
  have hfstspec : ∀ j : Nat, (r.2.nodes[j]?).map Prod.fst =
      (L0.nodes[j]?).map Prod.fst := by
    intro j
    rw [specB j]
    exact option_map_fst_pair _ _
  have hcnt0 : (zs.map Prod.fst).count 0 = 0 := by
    rw [hzsfst, List.count_eq_zero]
    intro hmem
    obtain ⟨k, hk⟩ := List.mem_iff_getElem?.mp hmem
    rw [List.getElem?_drop] at hk
    have := (CutoffList.lt_leading_zeros_iff sorted hk).mpr rfl
    omega
  have hL00 : L0.nodes[0]? = some (a, (⟨v, z⟩ : Entry T)) := by
    simp [hL0nodes]
  have hnodes0 : r.2.nodes[0]? = some (a, (⟨v, z⟩ : Entry T)) := by
    rw [specB 0, hL00, hcnt0]
    rfl
  refine ⟨rfl, rfl, ?_, hnodes0, ?_, ?_, ?_, ?_⟩
  · -- the invariant is preserved
    refine ⟨?_, ?_, sorted, ?_, ?_⟩
    · exact IndexList.WF_of_eq hwf0 sk1.symm sk3.symm sk4.symm
    · show ((zipped.take z).map (fun _ => (some a : Option Nat)) ++ r.1).length = m
      rw [List.length_append, hheadlen, sk5, hzs, List.length_drop, hziplen]
      omega
    · -- I1 for the new state
      intro p x hx
      replace hx : r.2.nodes[p]? = some x := hx
      rw [specB p] at hx
      rw [Option.map_eq_some'] at hx
      obtain ⟨y, hy, hyx⟩ := hx
      cases p with
      | zero =>
        rw [hL00] at hy
        obtain rfl : (a, (⟨v, z⟩ : Entry T)) = y := Option.some.inj hy
        subst hyx
        show z + (zs.map Prod.fst).count 0 = s.expected_cutoffs 0
        rw [hcnt0, CutoffList.expected_cutoffs,
          ← CutoffList.count_leading_zeros_eq s sorted]
        rfl
      | succ j =>
        have hyold : s.list.nodes[j]? = some y := by
          rw [hL0nodes, List.getElem?_cons_succ] at hy
          exact hy
        have hold := count_ok j y hyold
        subst hyx
        show y.2.preceding_cutoffs + (zs.map Prod.fst).count (j + 1) =
          s.expected_cutoffs (j + 1)
        have hcj : (zs.map Prod.fst).count (j + 1) =
            s.cutoff_positions.countP (fun c => decide (c = j + 1)) := by
          rw [hzsfst, count_eq_countP_decide]
          refine (countP_eq_countP_drop _ s.cutoff_positions z ?_).symm
          intro k c hk hkc
          have := (CutoffList.lt_leading_zeros_iff sorted hkc).mp hk
          subst this
          simp
        rw [hold, hcj, CutoffList.expected_cutoffs, CutoffList.expected_cutoffs,
          countP_le_split]
    · -- I2 for the new state
      intro q c hq
      have hqm : q < m := by
        have := List.getElem?_eq_some_iff.mp hq
        exact this.1
      show ((zipped.take z).map (fun _ => (some a : Option Nat)) ++ r.1)[q]? =
        some ((r.2.nodes[c]?).map Prod.fst)
      by_cases hqz : q < z
      · rw [List.getElem?_append, hheadlen, if_pos hqz, List.getElem?_map]
        have hql : q < zipped.length := by omega
        have hzq : (zipped.take z)[q]? = some (zipped[q]) := by
          rw [List.getElem?_take]
          rw [if_pos hqz]
          exact List.getElem?_eq_getElem hql
        rw [hzq]
        have hc0 : c = 0 := (CutoffList.lt_leading_zeros_iff sorted hq).mp hqz
        subst hc0
        rw [hfstspec 0, hL00]
        rfl
      · rw [List.getElem?_append, hheadlen, if_neg hqz]
        obtain ⟨e, he⟩ : ∃ e, s.following_ind[q]? = some e := by
          have : q < s.following_ind.length := by
            rw [len_eq]
            exact hqm
          exact ⟨_, List.getElem?_eq_getElem this⟩
        have hzsq : zs[q - z]? = some (c, e) := by
          rw [hzs, List.getElem?_drop]
          have : z + (q - z) = q := by omega
          rw [this]
          exact List.getElem?_zip_eq_some.mpr ⟨hq, he⟩
        rw [specA, List.getElem?_map, hzsq]
        simp only [Option.map_some', Option.some.injEq]
        rw [hfstspec c]
  · -- old nodes keep id and value, one rank later
    intro i
    show (r.2.nodes[i + 1]?).map keyVal = (s.list.nodes[i]?).map keyVal
    rw [specB (i + 1), option_map_keyVal_pc, hL0nodes, List.getElem?_cons_succ]
  · -- the length grows by one
    show r.2.nodes.length = s.list.nodes.length + 1
    have := congrArg List.length sk1
    simp only [List.length_map] at this
    rw [this, hlen0]
    rfl
  · show r.2.free = s.list.alloc.2.1
    rw [sk3]
    rfl
  · show r.2.next_id = s.list.alloc.2.2
    rw [sk4]
    rfl

/-- Everything `insert_last` does: the returned handle is the freshly
allocated slot; the new node is appended at rank `n` (the old length) with
counter equal to the number of cutoffs `<= n`; cache entries of cutoffs equal
to `n` (previously empty) now hold the new handle, all others are untouched;
the stored nodes are otherwise unchanged; and the invariant is preserved. -/
theorem CutoffList.insert_last_spec (s : CutoffList T) (v : T) (hInv : s.Inv) :
    (s.insert_last v).1 = some s.list.alloc.1 ∧
    (s.insert_last v).2.cutoff_positions = s.cutoff_positions ∧
    (s.insert_last v).2.Inv ∧
    (s.insert_last v).2.list.nodes =
      s.list.nodes ++ [(s.list.alloc.1, ⟨v, s.expected_cutoffs s.len⟩)] ∧
    (∀ (q c : Nat), s.cutoff_positions[q]? = some c →
      (s.insert_last v).2.following_ind[q]? =
        if c = s.len then some (some s.list.alloc.1) else s.following_ind[q]?) ∧
    (∀ (q c : Nat), s.cutoff_positions[q]? = some c → c = s.len →
      s.following_ind[q]? = some none) ∧
    (s.insert_last v).2.len = s.len + 1 := by
  obtain ⟨wf, len_eq, sorted, count_ok, cache_ok⟩ := hInv
  set n := s.list.len with hn
  set a := s.list.alloc.1 with ha
  set m := s.cutoff_positions.length with hm
  obtain ⟨sc1, sc2, sc3⟩ := insert_last_scan_spec n s.cutoff_positions 0 sorted
  set scan := CutoffList.insert_last_scan n s.cutoff_positions 0 with hscan
  have hnodes' : (s.insert_last v).2.list.nodes =
      s.list.nodes ++ [(a, (⟨v, scan.1⟩ : Entry T))] := rfl
  have hlen' : (s.insert_last v).2.list.nodes.length = n + 1 := by
    rw [hnodes', List.length_append]
    rfl
  have hnodes'at : ∀ c : Nat, ((s.insert_last v).2.list.nodes[c]?) =
      if c < n then s.list.nodes[c]?
      else if c = n then some (a, (⟨v, scan.1⟩ : Entry T)) else none := by
    intro c
    rw [hnodes', List.getElem?_append]
    rw [show s.list.nodes.length = n from rfl]
    by_cases hc : c < n
    · rw [if_pos hc, if_pos hc]
    · rw [if_neg hc, if_neg hc]
      by_cases hcn : c = n
      · rw [if_pos hcn]
        have h0 : c - n = 0 := by omega
        rw [h0]
        simp
      · rw [if_neg hcn]
        have h1 : 1 ≤ c - n := by omega
        rw [List.getElem?_eq_none_iff]
        simpa using h1
  -- the old node at a live rank is unchanged
  have hold : ∀ (c : Nat), c < n → ((s.insert_last v).2.list.nodes[c]?) =
      s.list.nodes[c]? := by
    intro c hc
    rw [hnodes'at, if_pos hc]
  -- full description of the new cache
  have hfoll' : ∀ (q c : Nat), s.cutoff_positions[q]? = some c →
      (s.insert_last v).2.following_ind[q]? =
        if c = n then some (some a) else s.following_ind[q]? := by
    intro q c hq
    have hqm : q < m := (List.getElem?_eq_some_iff.mp hq).1
    cases hsc : scan.2 with
    | none =>
      have hrepr0 : (s.insert_last v).2.following_ind = s.following_ind := by
        show (match scan.2 with
          | none => s.following_ind
          | some q0 =>
            s.following_ind.take q0 ++
              CutoffList.insert_last_set n
                (s.list.insert_last (⟨v, scan.1⟩ : Entry T)).1
                ((s.cutoff_positions.drop q0).zip (s.following_ind.drop q0))) =
          s.following_ind
        rw [hsc]
      rw [hrepr0]
      have hcn : c ≠ n := sc2 hsc c (List.getElem?_mem hq)
      rw [if_neg hcn]
    | some q0 =>
      obtain ⟨_, hq0, hq0min⟩ := sc3 q0 hsc
      rw [Nat.sub_zero] at hq0
      have hq0min' : ∀ (j c' : Nat), j < q0 → s.cutoff_positions[j]? = some c' →
          c' ≠ n := by
        intro j c' hj hjc
        exact sc3 q0 hsc |>.2.2 j c' (by omega) hjc
      have hq0m : q0 < m := (List.getElem?_eq_some_iff.mp hq0).1
      have hsetspec := insert_last_set_spec n (some a)
        ((s.cutoff_positions.drop q0).zip (s.following_ind.drop q0))
      have hzipfst : ((s.cutoff_positions.drop q0).zip
          (s.following_ind.drop q0)).map Prod.fst = s.cutoff_positions.drop q0 := by
        refine List.map_fst_zip _ _ ?_
        simp [len_eq]
      have hsorted2 : List.Sorted (· ≤ ·) (((s.cutoff_positions.drop q0).zip
          (s.following_ind.drop q0)).map Prod.fst) := by
        rw [hzipfst]
        exact sorted.sublist (List.drop_sublist q0 _)
      have hge2 : ∀ pi ∈ (s.cutoff_positions.drop q0).zip
          (s.following_ind.drop q0), n ≤ pi.1 := by
        intro pi hm'
        obtain ⟨k, hk⟩ := List.mem_iff_getElem?.mp hm'
        obtain ⟨hk1, _⟩ := List.getElem?_zip_eq_some.mp hk
        rw [List.getElem?_drop] at hk1
        refine sorted_le_getElem? sorted (Nat.le_add_right q0 k) hq0 hk1
      have hrepr2 : (s.insert_last v).2.following_ind =
          s.following_ind.take q0 ++
            CutoffList.insert_last_set n (some a)
              ((s.cutoff_positions.drop q0).zip (s.following_ind.drop q0)) := by
        show (match scan.2 with
          | none => s.following_ind
          | some q0 =>
            s.following_ind.take q0 ++
              CutoffList.insert_last_set n
                (s.list.insert_last (⟨v, scan.1⟩ : Entry T)).1
                ((s.cutoff_positions.drop q0).zip (s.following_ind.drop q0))) = _
        rw [hsc]
        rfl
      rw [hrepr2, hsetspec hsorted2 hge2]
      have htklen : (s.following_ind.take q0).length = q0 :=
        List.length_take_of_le (by rw [len_eq]; exact le_of_lt hq0m)
      by_cases hqlt : q < q0
      · -- before the first cutoff equal to n: untouched, and c < n
        have hcn : c ≠ n := hq0min' q c hqlt hq
        rw [if_neg hcn, List.getElem?_append, htklen, if_pos hqlt,
          List.getElem?_take, if_pos hqlt]
      · -- inside the processed suffix
        rw [List.getElem?_append, htklen, if_neg hqlt]
        obtain ⟨e, he⟩ : ∃ e, s.following_ind[q]? = some e := by
          have : q < s.following_ind.length := by
            rw [len_eq]
            exact hqm
          exact ⟨_, List.getElem?_eq_getElem this⟩
        have hzq : ((s.cutoff_positions.drop q0).zip
            (s.following_ind.drop q0))[q - q0]? = some (c, e) := by
          refine List.getElem?_zip_eq_some.mpr ⟨?_, ?_⟩
          · rw [List.getElem?_drop]
            have : q0 + (q - q0) = q := by omega
            rw [this]
            exact hq
          · rw [List.getElem?_drop]
            have : q0 + (q - q0) = q := by omega
            rw [this]
            exact he
        rw [List.getElem?_map, hzq]
        by_cases hcn : c = n
        · rw [if_pos hcn]
          simp [hcn]
        · rw [if_neg hcn, he]
          simp [hcn]
  refine ⟨rfl, rfl, ?_, ?_, hfoll', ?_, ?_⟩
  · -- the invariant is preserved
    refine ⟨IndexList.insert_last_wf wf _, ?_, sorted, ?_, ?_⟩
    · -- I3
      show (s.insert_last v).2.following_ind.length = m
      cases hsc : scan.2 with
      | none =>
        have hrepr0 : (s.insert_last v).2.following_ind = s.following_ind := by
          show (match scan.2 with
            | none => s.following_ind
            | some q0 =>
              s.following_ind.take q0 ++
                CutoffList.insert_last_set n
                  (s.list.insert_last (⟨v, scan.1⟩ : Entry T)).1
                  ((s.cutoff_positions.drop q0).zip (s.following_ind.drop q0))) =
            s.following_ind
          rw [hsc]
        rw [hrepr0, len_eq]
      | some q0 =>
        obtain ⟨_, hq0, _⟩ := sc3 q0 hsc
        rw [Nat.sub_zero] at hq0
        have hq0m : q0 < m := (List.getElem?_eq_some_iff.mp hq0).1
        have hrepr2 : (s.insert_last v).2.following_ind =
            s.following_ind.take q0 ++
              CutoffList.insert_last_set n (some a)
                ((s.cutoff_positions.drop q0).zip (s.following_ind.drop q0)) := by
          show (match scan.2 with
            | none => s.following_ind
            | some q0 =>
              s.following_ind.take q0 ++
                CutoffList.insert_last_set n
                  (s.list.insert_last (⟨v, scan.1⟩ : Entry T)).1
                  ((s.cutoff_positions.drop q0).zip (s.following_ind.drop q0))) = _
          rw [hsc]
          rfl
        rw [hrepr2, List.length_append, CutoffList.insert_last_set_length,
          List.length_take, List.length_zip, List.length_drop,
          List.length_drop, len_eq]
        omega
    · -- I1
      intro p x hx
      rw [hnodes'at p] at hx
      by_cases hp : p < n
      · rw [if_pos hp] at hx
        exact count_ok p x hx
      · rw [if_neg hp] at hx
        by_cases hpn : p = n
        · rw [if_pos hpn] at hx
          obtain rfl := Option.some.inj hx
          subst hpn
          show scan.1 = _
          rw [sc1]
          rfl
        · rw [if_neg hpn] at hx
          exact Option.noConfusion hx
    · -- I2
      intro q c hq
      rw [hfoll' q c hq]
      by_cases hcn : c = n
      · rw [if_pos hcn, hnodes'at c]
        have h1 : ¬c < n := by omega
        rw [if_neg h1, if_pos hcn]
        rfl
      · rw [if_neg hcn, cache_ok q c hq, hnodes'at c]
        by_cases hc : c < n
        · rw [if_pos hc]
        · rw [if_neg hc, if_neg hcn]
          have : s.list.nodes[c]? = none := by
            rw [List.getElem?_eq_none_iff]
            show n ≤ c
            omega
          rw [this]
  · rw [hnodes', sc1]
    rfl
  · -- a cutoff equal to the old length had an empty cache entry
    intro q c hq hcn
    have hcn' : c = n := hcn
    have := cache_ok q c hq
    have hnone : s.list.nodes[c]? = none := by
      rw [List.getElem?_eq_none_iff]
      show n ≤ c
      omega
    rw [hnone] at this
    exact this
  · show (s.insert_last v).2.list.nodes.length = n + 1
    exact hlen'

theorem countP_lt_split (l : List Nat) (x : Nat) :
    l.countP (fun c => decide (c ≤ x)) =
      l.countP (fun c => decide (c < x)) + l.countP (fun c => decide (c = x)) := by
  induction l with
  | nil => rfl
  | cons c rest ih =>
    simp only [List.countP_cons, ih]
    by_cases h1 : c < x
    · have h3 : c ≤ x := by omega
      have h4 : ¬c = x := by omega
      simp [h1, h3, h4]
      omega
    · by_cases h2 : c = x
      · have h3 : c ≤ x := by omega
        simp [h1, h2, h3]
        omega
      · have h3 : ¬c ≤ x := by omega
        simp [h1, h2, h3]

theorem sorted_countP_lt_iff' {l : List Nat} (hs : List.Sorted (· ≤ ·) l) {q c : Nat}
    (h : l[q]? = some c) (x : Nat) :
    q < l.countP (fun c' => decide (c' < x)) ↔ c < x := by
  induction l generalizing q with
  | nil => simp at h
  | cons hd tl ih =>
    rw [List.sorted_cons] at hs
    rcases q with _ | q
    · have hhd : hd = c := by simpa using h
      subst hhd
      by_cases hc : hd < x
      · simp [List.countP_cons, hc]
      · have hz : tl.countP (fun c' => decide (c' < x)) = 0 :=
          countP_eq_zero_of_forall fun a ha => by
            have := hs.1 a ha
            simp only [decide_eq_true_eq]
            omega
        simp [List.countP_cons, hc, hz]
    · have h' : tl[q]? = some c := by simpa using h
      clear h
      by_cases hhd : hd < x
      · simp only [List.countP_cons, decide_eq_true_eq, hhd, if_true]
        rw [Nat.succ_lt_succ_iff]
        exact ih hs.2 h'
      · have hcm : c ∈ tl := List.getElem?_mem h'
        have hc : ¬c < x := by
          have := hs.1 c hcm
          omega
        have hz : tl.countP (fun c' => decide (c' < x)) = 0 :=
          countP_eq_zero_of_forall fun a ha => by
            have := hs.1 a ha
            simp only [decide_eq_true_eq]
            omega
        simp [List.countP_cons, hhd, hz, hc]

theorem countP_eq_countP_take (p : Nat → Bool) :
    ∀ (l : List Nat) (k : Nat),
    (∀ (j : Nat) (c : Nat), k ≤ j → l[j]? = some c → p c = false) →
    l.countP p = (l.take k).countP p := by
  intro l
  induction l with
  | nil => intro k _; simp
  | cons c rest ih =>
    intro k h
    cases k with
    | zero =>
      have hz : (c :: rest).countP p = 0 :=
        countP_eq_zero_of_forall fun a ha => by
          obtain ⟨j, hj⟩ := List.mem_iff_getElem?.mp ha
          rw [h j a (Nat.zero_le j) hj]
          simp
      rw [hz]
      rfl
    | succ k =>
      rw [List.take_succ_cons, List.countP_cons, List.countP_cons]
      rw [ih k fun j a hj ha => h (j + 1) a (by omega) (by simpa using ha)]

theorem getElem?_take_reverse {α : Type} (l : List α) (t k : Nat) (ht : t ≤ l.length) :
    (l.take t).reverse[k]? = if k < t then l[t - 1 - k]? else none := by
  have hlen : (l.take t).length = t := List.length_take_of_le ht
  by_cases hk : k < t
  · rw [if_pos hk]
    rw [List.getElem?_reverse (by rw [hlen]; exact hk), hlen]
    rw [List.getElem?_take]
    rw [if_pos (by omega)]
  · rw [if_neg hk]
    rw [List.getElem?_eq_none_iff]
    simp only [List.length_reverse, hlen]
    omega

/-- Everything `remove` does on a live handle (the node `x` at rank `rk`):
the stored value is returned, the node disappears from the sequence (later
nodes keep id and value one rank earlier), the length drops by one, the
removed slot id is no longer live, and the invariant is preserved. -/
theorem CutoffList.remove_spec (s : CutoffList T) (hInv : s.Inv)
    {rk : Nat} {x : Nat × Entry T} (hrk : s.list.nodes[rk]? = some x) :
    (s.remove (some x.1)).1 = some x.2.value ∧
    (s.remove (some x.1)).2.cutoff_positions = s.cutoff_positions ∧
    (s.remove (some x.1)).2.Inv ∧
    (∀ i : Nat, ((s.remove (some x.1)).2.list.nodes[i]?).map keyVal =
      if i < rk then (s.list.nodes[i]?).map keyVal
      else (s.list.nodes[i + 1]?).map keyVal) ∧
    (s.remove (some x.1)).2.len + 1 = s.len ∧
    x.1 ∉ (s.remove (some x.1)).2.list.nodes.map Prod.fst := by
  obtain ⟨wf, len_eq, sorted, count_ok, cache_ok⟩ := hInv
  set m := s.cutoff_positions.length with hm
  have nd := wf.nodup_nodes
  have hrklen : rk < s.list.nodes.length := (List.getElem?_eq_some_iff.mp hrk).1
  have hlook : lookupId s.list.nodes x.1 = some x.2 := lookupId_getElem? nd hrk
  set K : IndexList (Entry T) :=
    ⟨eraseId s.list.nodes x.1, x.1 :: s.list.free, s.list.next_id⟩ with hK
  have hremlist : s.list.remove (some x.1) = (some x.2, K) := by
    simp only [IndexList.remove, hlook]
  have hKnodes : K.nodes = s.list.nodes.take rk ++ s.list.nodes.drop (rk + 1) :=
    eraseId_eq nd hrk
  have hKat : ∀ i : Nat, K.nodes[i]? =
      if i < rk then s.list.nodes[i]? else s.list.nodes[i + 1]? := by
    intro i
    rw [hKnodes]
    exact getElem?_take_append_drop hrklen i
  have hKwf : K.WF := by
    have h2 := IndexList.remove_wf wf (some x.1)
    rw [hremlist] at h2
    exact h2
  have hKnd : (K.nodes.map Prod.fst).Nodup := hKwf.nodup_nodes
  have hKnotmem : x.1 ∉ K.nodes.map Prod.fst := not_mem_eraseId_fst nd x.1
  have hKlen : K.nodes.length = s.list.nodes.length - 1 := by
    rw [hKnodes, List.length_append, List.length_take_of_le (by omega),
      List.length_drop]
    omega
  have hposOf : posOf s.list.nodes x.1 = some rk := posOf_getElem? nd hrk
  have hnext : s.list.next_index (some x.1) = (s.list.nodes[rk + 1]?).map Prod.fst := by
    rw [IndexList.next_index_some, hposOf]
  set cLE := s.cutoff_positions.countP (fun c => decide (c ≤ rk)) with hcLE
  set cLT := s.cutoff_positions.countP (fun c => decide (c < rk)) with hcLT
  have hpcx : x.2.preceding_cutoffs = cLE := count_ok rk x hrk
  have hcLEm : cLE ≤ m := s.cutoff_positions.countP_le_length _
  have hsplitc : cLE = cLT + s.cutoff_positions.countP (fun c => decide (c = rk)) :=
    countP_lt_split s.cutoff_positions rk
  have hcLTle : cLT ≤ cLE := by omega
  have hqLE : ∀ (q w : Nat), s.cutoff_positions[q]? = some w → (q < cLE ↔ w ≤ rk) :=
    fun q w h => sorted_countP_lt_iff sorted h rk
  have hqLT : ∀ (q w : Nat), s.cutoff_positions[q]? = some w → (q < cLT ↔ w < rk) :=
    fun q w h => sorted_countP_lt_iff' sorted h rk
  have hcut : ∀ q : Nat, q < m → ∃ w, s.cutoff_positions[q]? = some w :=
    fun q hq => ⟨_, List.getElem?_eq_getElem hq⟩
  have hfol : ∀ q : Nat, q < m → ∃ e, s.following_ind[q]? = some e :=
    fun q hq => ⟨_, List.getElem?_eq_getElem (len_eq.symm ▸ hq)⟩
  set nxt := s.list.next_index (some x.1) with hnxt
  have hdef : s.remove (some x.1) = (some x.2.value,
      CutoffList.mk s.cutoff_positions
        ((CutoffList.remove_before_loop (some x.1) nxt
            (s.following_ind.take x.2.preceding_cutoffs).reverse).reverse ++
          (CutoffList.remove_after_loop K
            (s.following_ind.drop x.2.preceding_cutoffs)).1)
        (CutoffList.remove_after_loop K
          (s.following_ind.drop x.2.preceding_cutoffs)).2) := by
    simp only [CutoffList.remove, hremlist]
  rw [hpcx] at hdef
  -- the reversed prefix decomposes into a run of the removed handle
  set amt := cLE - cLT with hamt
  set b := (s.following_ind.take cLT).reverse with hb
  have hbefore_rev : (s.following_ind.take cLE).reverse =
      List.replicate amt (some x.1) ++ b := by
    refine List.ext_getElem? fun k => ?_
    rw [getElem?_take_reverse _ _ _ (by rw [len_eq]; exact hcLEm)]
    rw [List.getElem?_append]
    rw [List.length_replicate]
    by_cases hk : k < amt
    · rw [if_pos (by omega), if_pos hk, List.getElem?_replicate, if_pos hk]
      set q := cLE - 1 - k with hq
      obtain ⟨w, hw⟩ := hcut q (by omega)
      have hw1 : w ≤ rk := (hqLE q w hw).mp (by omega)
      have hw2 : ¬w < rk := fun hc => by
        have := (hqLT q w hw).mpr hc
        omega
      have hwrk : w = rk := by omega
      have := cache_ok q w hw
      rw [hwrk, hrk] at this
      rw [this]
      rfl
    · rw [if_neg hk, hb, getElem?_take_reverse _ _ _ (by rw [len_eq]; omega)]
      by_cases hk2 : k < cLE
      · rw [if_pos hk2, if_pos (by omega)]
        congr 1
        omega
      · rw [if_neg hk2, if_neg (by omega)]
  have hbhead : ∀ e, b.head? = some e → e ≠ some x.1 := by
    intro e he heq
    have hmem : e ∈ b := List.mem_of_mem_head? he
    obtain ⟨k, hk⟩ := List.mem_iff_getElem?.mp hmem
    rw [hb, getElem?_take_reverse _ _ _ (by rw [len_eq]; omega)] at hk
    by_cases hkc : k < cLT
    · rw [if_pos hkc] at hk
      set q := cLT - 1 - k with hq
      obtain ⟨w, hw⟩ := hcut q (by omega)
      have hwlt : w < rk := (hqLT q w hw).mp (by omega)
      have hw3 := cache_ok q w hw
      rw [hk] at hw3
      have hfst : (s.list.nodes[w]?).map Prod.fst = some x.1 := by
        rw [← Option.some.inj hw3, heq]
      have h1 : (s.list.nodes.map Prod.fst)[w]? = some x.1 := by
        rw [← map_fst_getElem?, hfst]
      have h2 : (s.list.nodes.map Prod.fst)[rk]? = some x.1 := by
        rw [← map_fst_getElem?, hrk]
        rfl
      obtain ⟨hb1, he1⟩ := List.getElem?_eq_some_iff.mp h1
      obtain ⟨hb2, he2⟩ := List.getElem?_eq_some_iff.mp h2
      have : w = rk := (List.Nodup.getElem_inj_iff nd).mp (he1.trans he2.symm)
      omega
    · rw [if_neg hkc] at hk
      exact Option.noConfusion hk
  have hbef : (CutoffList.remove_before_loop (some x.1) nxt
      (s.following_ind.take cLE).reverse).reverse =
      s.following_ind.take cLT ++ List.replicate amt nxt := by
    rw [hbefore_rev, remove_before_loop_spec (some x.1) nxt amt b hbhead,
      List.reverse_append, List.reverse_replicate, hb, List.reverse_reverse]
  -- the suffix loop
  set qs := (s.cutoff_positions.drop cLE).map (fun c => c - 1) with hqs
  have hqslen : qs.length = m - cLE := by
    rw [hqs, List.length_map, List.length_drop]
  have hdroplen : (s.following_ind.drop cLE).length = m - cLE := by
    rw [List.length_drop, len_eq]
  have hwgt : ∀ (k w : Nat), s.cutoff_positions[cLE + k]? = some w → rk < w := by
    intro k w hw
    have := (hqLE (cLE + k) w hw)
    omega
  have hFa : List.Forall₂ (fun q e => e = (K.nodes[q]?).map Prod.fst)
      qs (s.following_ind.drop cLE) := by
    rw [List.forall₂_iff_zip]
    refine ⟨by rw [hqslen, hdroplen], ?_⟩
    intro a e hm'
    obtain ⟨k, hk⟩ := List.mem_iff_getElem?.mp hm'
    obtain ⟨hk1, hk2⟩ := List.getElem?_zip_eq_some.mp hk
    rw [hqs, List.getElem?_map] at hk1
    rw [List.getElem?_drop] at hk1 hk2
    rw [Option.map_eq_some'] at hk1
    obtain ⟨w, hw, rfl⟩ := hk1
    have hwr : rk < w := hwgt k w hw
    have := cache_ok (cLE + k) w hw
    rw [hk2] at this
    obtain rfl : e = (s.list.nodes[w]?).map Prod.fst := Option.some.inj this
    rw [hKat]
    rw [if_neg (by omega)]
    congr 2
    omega
  have hqsorted : List.Sorted (· ≤ ·) qs := by
    rw [hqs]
    refine List.Pairwise.map _ ?_ (sorted.sublist (List.drop_sublist cLE _))
    intro a b hab
    omega
  obtain ⟨raA, raB⟩ := remove_after_loop_spec qs (s.following_ind.drop cLE)
    K hKnd hqsorted hFa
  have hfinfst : ∀ j : Nat,
      (((CutoffList.remove_after_loop K (s.following_ind.drop cLE)).2.nodes[j]?).map
        Prod.fst) = (K.nodes[j]?).map Prod.fst := by
    intro j
    rw [raB j]
    exact option_map_fst_pair _ _
  obtain ⟨sk1, sk2, sk3, sk4, sk5⟩ :=
    remove_after_loop_skel (s.following_ind.drop cLE) K
  have hqcount : ∀ p : Nat, rk ≤ p → qs.count p =
      s.cutoff_positions.countP (fun c => decide (c = p + 1)) := by
    intro p hp
    rw [hqs, List.count_eq_countP, List.countP_map]
    have h1 : (s.cutoff_positions.drop cLE).countP
        (fun c => ((c - 1) == p : Bool)) =
        (s.cutoff_positions.drop cLE).countP (fun c => decide (c = p + 1)) := by
      refine List.countP_congr fun a ha => ?_
      obtain ⟨k, hk⟩ := List.mem_iff_getElem?.mp ha
      rw [List.getElem?_drop] at hk
      have h2 := hwgt k a hk
      by_cases h4 : a = p + 1
      · have h5 : a - 1 = p := by omega
        simp [h4, h5]
      · have h5 : ¬a - 1 = p := by omega
        simp [h4, h5]
    rw [show ((fun c => (c == p : Bool)) ∘ fun c => c - 1) =
        (fun c => ((c - 1) == p : Bool)) from rfl, h1]
    refine (countP_eq_countP_drop _ s.cutoff_positions cLE ?_).symm
    intro k c hk hc
    have hle : c ≤ rk := (hqLE k c hc).mp hk
    simp only [decide_eq_false_iff_not]
    omega
  have hqcount0 : ∀ p : Nat, p < rk → qs.count p = 0 := by
    intro p hp
    rw [List.count_eq_zero]
    intro hmem
    obtain ⟨k, hk⟩ := List.mem_iff_getElem?.mp hmem
    rw [hqs, List.getElem?_map, Option.map_eq_some'] at hk
    obtain ⟨w, hw, hw2⟩ := hk
    rw [List.getElem?_drop] at hw
    have := hwgt k w hw
    omega
  refine ⟨by rw [hdef], by rw [hdef], ?_, ?_, ?_, ?_⟩
  · -- the invariant is preserved
    rw [hdef]
    refine ⟨IndexList.WF_of_eq hKwf sk1.symm sk3.symm sk4.symm, ?_, sorted, ?_, ?_⟩
    · show ((CutoffList.remove_before_loop (some x.1) nxt
          (s.following_ind.take cLE).reverse).reverse ++
          (CutoffList.remove_after_loop K (s.following_ind.drop cLE)).1).length = m
      rw [hbef, List.length_append, List.length_append,
        List.length_take_of_le (by rw [len_eq]; omega), List.length_replicate,
        sk5, hdroplen]
      omega
    · -- I1
      intro p y hy
      replace hy : (CutoffList.remove_after_loop K
          (s.following_ind.drop cLE)).2.nodes[p]? = some y := hy
      rw [raB p, Option.map_eq_some'] at hy
      obtain ⟨u, hu, rfl⟩ := hy
      rw [hKat p] at hu
      show u.2.preceding_cutoffs - qs.count p = s.expected_cutoffs p
      by_cases hp : p < rk
      · rw [if_pos hp] at hu
        rw [count_ok p u hu, hqcount0 p hp]
        rfl
      · rw [if_neg hp] at hu
        have hcu := count_ok (p + 1) u hu
        rw [hcu, hqcount p (by omega)]
        show s.cutoff_positions.countP (fun c => decide (c ≤ p + 1)) -
          s.cutoff_positions.countP (fun c => decide (c = p + 1)) =
          s.cutoff_positions.countP (fun c => decide (c ≤ p))
        rw [countP_le_split]
        omega
    · -- I2
      intro q w hq
      have hqm : q < m := (List.getElem?_eq_some_iff.mp hq).1
      show ((CutoffList.remove_before_loop (some x.1) nxt
          (s.following_ind.take cLE).reverse).reverse ++
          (CutoffList.remove_after_loop K (s.following_ind.drop cLE)).1)[q]? =
        some (((CutoffList.remove_after_loop K
          (s.following_ind.drop cLE)).2.nodes[w]?).map Prod.fst)
      rw [hfinfst w, hbef]
      have hlen1 : (s.following_ind.take cLT ++ List.replicate amt nxt).length =
          cLE := by
        rw [List.length_append, List.length_take_of_le (by rw [len_eq]; omega),
          List.length_replicate]
        omega
      rw [List.getElem?_append, hlen1]
      by_cases hq1 : q < cLE
      · rw [if_pos hq1]
        rw [List.getElem?_append, List.length_take_of_le (by rw [len_eq]; omega)]
        by_cases hq2 : q < cLT
        · rw [if_pos hq2, List.getElem?_take, if_pos hq2]
          have hwlt : w < rk := (hqLT q w hq).mp hq2
          rw [cache_ok q w hq, hKat w, if_pos hwlt]
        · rw [if_neg hq2, List.getElem?_replicate, if_pos (by omega)]
          have hw1 : w ≤ rk := (hqLE q w hq).mp hq1
          have hw2 : ¬w < rk := fun hc => hq2 ((hqLT q w hq).mpr hc)
          have hwrk : w = rk := by omega
          have hKw : Option.map Prod.fst K.nodes[w]? = nxt := by
            rw [hKat w, if_neg hw2, hwrk]
            exact hnext.symm
          rw [hKw]
      · rw [if_neg hq1, raA, List.getElem?_map]
        have hqsq : qs[q - cLE]? = some (w - 1) := by
          rw [hqs, List.getElem?_map, List.getElem?_drop]
          have : cLE + (q - cLE) = q := by omega
          rw [this, hq]
          rfl
        rw [hqsq]
        have hwgt' : rk < w := by
          have := (hqLE q w hq)
          omega
        simp only [Option.map_some', Option.some.injEq]
        congr 2
        omega
  · -- the sequence loses exactly the node at rank rk
    intro i
    rw [hdef]
    show (((CutoffList.remove_after_loop K
        (s.following_ind.drop cLE)).2.nodes[i]?).map keyVal) = _
    rw [raB i, option_map_keyVal_pc, hKat i]
    by_cases hi : i < rk
    · rw [if_pos hi, if_pos hi]
    · rw [if_neg hi, if_neg hi]
  · -- the length drops by one
    rw [hdef]
    show (CutoffList.remove_after_loop K
        (s.following_ind.drop cLE)).2.nodes.length + 1 = s.list.nodes.length
    have := congrArg List.length sk1
    simp only [List.length_map] at this
    rw [this, hKlen]
    omega
  · -- the removed slot id is gone
    rw [hdef]
    show x.1 ∉ (CutoffList.remove_after_loop K
        (s.following_ind.drop cLE)).2.nodes.map Prod.fst
    rw [sk1]
    exact hKnotmem

/-- `shift_to_front` preserves the `CutoffList` invariant, for every
argument: the two no-op triggers leave the state unchanged, and a genuine
relocation repairs both auxiliary structures. -/
theorem CutoffList.shift_to_front_inv (s : CutoffList T) (hInv : s.Inv)
    (i : Option Nat) : (s.shift_to_front i).Inv := by
  cases hguard : (s.list.prev_index i).isNone with
  | true =>
    have hid : s.shift_to_front i = s := by
      rw [CutoffList.shift_to_front]
      simp [hguard]
    rw [hid]
    exact hInv
  | false =>
    obtain ⟨wf, len_eq, sorted, count_ok, cache_ok⟩ := hInv
    cases i with
    | none =>
      rw [IndexList.prev_index_none] at hguard
      simp at hguard
    | some id =>
      have hguard' := hguard
      rw [IndexList.prev_index_some] at hguard'
      cases hpos : posOf s.list.nodes id with
      | none => simp [hpos] at hguard'
      | some r0 =>
        cases r0 with
        | zero => simp [hpos] at hguard'
        | succ j =>
          clear hguard'
          obtain ⟨v, hrk⟩ := posOf_some hpos
          have hrklen : j + 1 < s.list.nodes.length :=
            (List.getElem?_eq_some_iff.mp hrk).1
          have hlook : lookupId s.list.nodes id = some v :=
            lookupId_getElem? wf.nodup_nodes hrk
          have hget : s.list.get (some id) = some v := hlook
          have hdef : s.shift_to_front (some id) = CutoffList.mk s.cutoff_positions
              ((s.following_ind.take s.count_leading_zeros).map
                  (fun _ => (some id : Option Nat)) ++
                (CutoffList.shift_to_front_loop (s.list.prev_index (some id)) (some id)
                  (v.preceding_cutoffs - s.count_leading_zeros)
                  ((s.list.get_mut (some id)
                      (fun e =>
                        { e with preceding_cutoffs := s.count_leading_zeros })).shift_index_to_front
                    (some id)).2
                  (s.following_ind.drop s.count_leading_zeros)).1)
              ((CutoffList.shift_to_front_loop (s.list.prev_index (some id)) (some id)
                  (v.preceding_cutoffs - s.count_leading_zeros)
                  ((s.list.get_mut (some id)
                      (fun e =>
                        { e with preceding_cutoffs := s.count_leading_zeros })).shift_index_to_front
                    (some id)).2
                  (s.following_ind.drop s.count_leading_zeros)).2) := by
            simp only [CutoffList.shift_to_front, hguard, Bool.false_eq_true, if_false,
              hget, Option.map_some', Option.getD_some]
          set m := s.cutoff_positions.length with hm
          set z := s.count_leading_zeros with hz
          set pc := v.preceding_cutoffs with hpc
          set pv := s.list.prev_index (some id) with hpv
          set L0 := s.list.get_mut (some id)
            (fun e => { e with preceding_cutoffs := z }) with hL0
          set L1 := (L0.shift_index_to_front (some id)).2 with hL1
          set es := s.following_ind.drop z with hes
          set ps := (s.cutoff_positions.drop z).take (pc - z) with hps
          set r := CutoffList.shift_to_front_loop pv (some id) (pc - z) L1 es with hr
          -- arithmetic bounds
          have hzm : z ≤ m := CutoffList.count_leading_zeros_le s
          have hpcLE : pc = s.cutoff_positions.countP (fun c => decide (c ≤ j + 1)) :=
            count_ok (j + 1) (id, v) hrk
          have hpcm : pc ≤ m := by
            rw [hpcLE, hm]
            exact List.countP_le_length _
          have hzpc : z ≤ pc := by
            rw [hz, CutoffList.count_leading_zeros_eq s sorted, hpcLE]
            refine List.countP_mono_left fun c _ hc => ?_
            simp only [decide_eq_true_eq] at hc ⊢
            omega
          have hpslen : ps.length = pc - z := by
            rw [hps]
            refine List.length_take_of_le ?_
            rw [List.length_drop, ← hm]
            omega
          have heslen : es.length = m - z := by
            rw [hes, List.length_drop, len_eq]
          -- the intermediate stores
          have hL0nodes : L0.nodes =
              mapId s.list.nodes id (fun e => { e with preceding_cutoffs := z }) := by
            rw [hL0, IndexList.get_mut]
          have hL0at : ∀ t : Nat, L0.nodes[t]? =
              if t = j + 1 then some (id, (⟨v.value, z⟩ : Entry T))
              else s.list.nodes[t]? := by
            intro t
            rw [hL0nodes]
            exact getElem?_mapId_eq wf.nodup_nodes hrk t
          have hL0fst : L0.nodes.map Prod.fst = s.list.nodes.map Prod.fst := by
            rw [hL0nodes]
            exact mapId_map_fst
          have hL0wf : L0.WF := IndexList.WF_of_eq wf hL0fst.symm rfl rfl
          have hL0len : L0.nodes.length = s.list.nodes.length := by
            rw [hL0nodes]
            exact length_mapId
          have hrk0 : L0.nodes[j + 1]? = some (id, (⟨v.value, z⟩ : Entry T)) := by
            rw [hL0at (j + 1), if_pos rfl]
          have hlook0 : lookupId L0.nodes id = some (⟨v.value, z⟩ : Entry T) :=
            lookupId_getElem? hL0wf.nodup_nodes hrk0
          have hL1wf : L1.WF := IndexList.shift_wf hL0wf (some id)
          have hnd1 : (L1.nodes.map Prod.fst).Nodup := hL1wf.nodup_nodes
          have hL1nodes : L1.nodes =
              (id, (⟨v.value, z⟩ : Entry T)) :: eraseId L0.nodes id := by
            rw [hL1]
            simp only [IndexList.shift_index_to_front, hlook0]
          have heraseL0 : eraseId L0.nodes id =
              L0.nodes.take (j + 1) ++ L0.nodes.drop (j + 2) :=
            eraseId_eq hL0wf.nodup_nodes hrk0
          have hL1at : ∀ t : Nat, L1.nodes[t]? =
              if t = 0 then some (id, (⟨v.value, z⟩ : Entry T))
              else if t ≤ j + 1 then s.list.nodes[t - 1]? else s.list.nodes[t]? := by
            intro t
            rw [hL1nodes]
            cases t with
            | zero => simp
            | succ t =>
              rw [List.getElem?_cons_succ, heraseL0,
                getElem?_take_append_drop (by rw [hL0len]; omega) t]
              by_cases ht : t < j + 1
              · rw [if_pos ht, hL0at t, if_neg (show ¬t = j + 1 by omega),
                  if_neg (show ¬t + 1 = 0 by omega),
                  if_pos (show t + 1 ≤ j + 1 by omega)]
                rfl
              · rw [if_neg ht, hL0at (t + 1), if_neg (show ¬t + 1 = j + 1 by omega),
                  if_neg (show ¬t + 1 = 0 by omega),
                  if_neg (show ¬t + 1 ≤ j + 1 by omega)]
          have hL1len : L1.nodes.length = s.list.nodes.length := by
            rw [hL1nodes, heraseL0]
            simp only [List.length_cons, List.length_append, List.length_take,
              List.length_drop, hL0len]
            omega
          -- facts about the window of processed cutoffs
          have hps_mem : ∀ c' ∈ ps, 1 ≤ c' ∧ c' ≤ j + 1 := by
            intro c' hmem
            obtain ⟨t, ht⟩ := List.mem_iff_getElem?.mp hmem
            have htlt : t < ps.length := (List.getElem?_eq_some_iff.mp ht).1
            rw [hpslen] at htlt
            rw [hps, List.getElem?_take, if_pos htlt, List.getElem?_drop] at ht
            constructor
            · rcases Nat.eq_zero_or_pos c' with h0 | h1
              · exact absurd ((CutoffList.lt_leading_zeros_iff sorted ht).mpr h0)
                  (by omega)
              · exact h1
            · refine (sorted_countP_lt_iff sorted ht (j + 1)).mp ?_
              rw [← hpcLE]
              omega
          have hcount_zero : ps.count 0 = 0 := by
            rw [List.count_eq_zero]
            intro hmem
            have := hps_mem 0 hmem
            omega
          have hcount_big : ∀ p : Nat, j + 1 < p → ps.count p = 0 := by
            intro p hp
            rw [List.count_eq_zero]
            intro hmem
            have := hps_mem p hmem
            omega
          have hcount_ps : ∀ p : Nat, 1 ≤ p → p ≤ j + 1 →
              ps.count p = s.cutoff_positions.countP (fun c => decide (c = p)) := by
            intro p hp1 hp2
            have hside1 : ∀ (t c' : Nat), pc - z ≤ t →
                (s.cutoff_positions.drop z)[t]? = some c' →
                decide (c' = p) = false := by
              intro t c' ht hc'
              rw [List.getElem?_drop] at hc'
              have hgt : ¬c' ≤ j + 1 := by
                intro hle
                have := (sorted_countP_lt_iff sorted hc' (j + 1)).mpr hle
                rw [← hpcLE] at this
                omega
              simp only [decide_eq_false_iff_not]
              omega
            have hside2 : ∀ (k c' : Nat), k < z → s.cutoff_positions[k]? = some c' →
                decide (c' = p) = false := by
              intro k c' hk hc'
              have hc0 : c' = 0 :=
                (CutoffList.lt_leading_zeros_iff sorted hc').mp (by omega)
              simp only [decide_eq_false_iff_not]
              omega
            rw [hps, count_eq_countP_decide,
              ← countP_eq_countP_take _ (s.cutoff_positions.drop z) (pc - z) hside1,
              ← countP_eq_countP_drop _ s.cutoff_positions z hside2]
          -- hypotheses of the loop specification
          have hprev_eq : pv = (s.list.nodes[j]?).map Prod.fst := by
            rw [hpv]
            simp only [IndexList.prev_index_some, hpos]
          have hι : (L1.nodes[0]?).map Prod.fst = some id := by
            rw [hL1at 0, if_pos rfl]
            rfl
          have hprev2 : pv = (L1.nodes[j + 1]?).map Prod.fst := by
            rw [hprev_eq, hL1at (j + 1), if_neg (show ¬j + 1 = 0 by omega),
              if_pos (le_refl (j + 1))]
            rfl
          have hlenle : ps.length ≤ es.length := by
            rw [hpslen, heslen]
            omega
          have hF : List.Forall₂ (fun p e =>
              e = (L1.nodes[if p = j + 1 then 0 else p + 1]?).map Prod.fst ∧
              (p ≠ j + 1 → p + 1 < L1.nodes.length))
              ps (es.take ps.length) := by
            rw [List.forall₂_iff_zip]
            refine ⟨(List.length_take_of_le hlenle).symm, ?_⟩
            intro a e hmem
            obtain ⟨t, ht⟩ := List.mem_iff_getElem?.mp hmem
            obtain ⟨ht1, ht2⟩ := List.getElem?_zip_eq_some.mp ht
            have htlen : t < ps.length := (List.getElem?_eq_some_iff.mp ht1).1
            rw [List.getElem?_take, if_pos htlen] at ht2
            rw [hes, List.getElem?_drop] at ht2
            have htlt : t < pc - z := by omega
            rw [hps, List.getElem?_take, if_pos htlt, List.getElem?_drop] at ht1
            have ha1 : a ≤ j + 1 := by
              refine (sorted_countP_lt_iff sorted ht1 (j + 1)).mp ?_
              rw [← hpcLE]
              omega
            have ha0 : ¬a = 0 := fun h0 =>
              absurd ((CutoffList.lt_leading_zeros_iff sorted ht1).mpr h0) (by omega)
            have hcache := cache_ok (z + t) a ht1
            rw [ht2] at hcache
            have he : e = (s.list.nodes[a]?).map Prod.fst := Option.some.inj hcache
            constructor
            · by_cases haj : a = j + 1
              · rw [he, haj, if_pos rfl, hL1at 0, if_pos rfl, hrk]
                rfl
              · rw [he, if_neg haj, hL1at (a + 1),
                  if_neg (show ¬a + 1 = 0 by omega),
                  if_pos (show a + 1 ≤ j + 1 by omega)]
                rfl
            · intro hne
              rw [hL1len]
              omega
          obtain ⟨spA, spB⟩ := shift_to_front_loop_spec (j + 1) id pv ps es L1
            hnd1 hι hprev2 hlenle hF
          have hrfold : r = CutoffList.shift_to_front_loop pv (some id) ps.length L1 es := by
            rw [hpslen]
          have spA' : r.1 =
              ps.map (fun p => (L1.nodes[p]?).map Prod.fst) ++ es.drop ps.length := by
            rw [hrfold]
            exact spA
          have spB' : ∀ t : Nat, r.2.nodes[t]? = (L1.nodes[t]?).map (fun x =>
              (x.1, Entry.mk x.2.value (x.2.preceding_cutoffs + ps.count t))) := by
            rw [hrfold]
            exact spB
          obtain ⟨sk1, _, sk3, sk4, sk5⟩ :=
            CutoffList.shift_to_front_loop_skel pv (some id) (pc - z) es L1
          rw [← hr] at sk1 sk3 sk4 sk5
          have hfstr : ∀ t : Nat, (r.2.nodes[t]?).map Prod.fst =
              (L1.nodes[t]?).map Prod.fst := by
            intro t
            rw [spB' t]
            exact option_map_fst_pair _ _
          have htakelen :
              ((s.following_ind.take z).map (fun _ => (some id : Option Nat))).length =
                z := by
            rw [List.length_map]
            refine List.length_take_of_le ?_
            rw [len_eq]
            omega
          -- the invariant of the new state
          rw [hdef]
          refine ⟨?_, ?_, sorted, ?_, ?_⟩
          · exact IndexList.WF_of_eq hL1wf sk1.symm sk3.symm sk4.symm
          · show ((s.following_ind.take z).map (fun _ => (some id : Option Nat)) ++
                r.1).length = m
            rw [List.length_append, htakelen, sk5, heslen]
            omega
          · -- I1 for the new state
            intro p y hy
            replace hy : r.2.nodes[p]? = some y := hy
            rw [spB' p, Option.map_eq_some'] at hy
            obtain ⟨w, hw, hwy⟩ := hy
            rw [hL1at p] at hw
            cases p with
            | zero =>
              rw [if_pos rfl] at hw
              obtain rfl : w = (id, (⟨v.value, z⟩ : Entry T)) :=
                (Option.some.inj hw).symm
              subst hwy
              show z + ps.count 0 = s.cutoff_positions.countP (fun c => decide (c ≤ 0))
              rw [hcount_zero]
              have := CutoffList.count_leading_zeros_eq s sorted
              omega
            | succ t =>
              rw [if_neg (show ¬t + 1 = 0 by omega)] at hw
              subst hwy
              show w.2.preceding_cutoffs + ps.count (t + 1) =
                s.cutoff_positions.countP (fun c => decide (c ≤ t + 1))
              by_cases htj : t + 1 ≤ j + 1
              · rw [if_pos htj] at hw
                have hw' : s.list.nodes[t]? = some w := hw
                have hcw : w.2.preceding_cutoffs =
                    s.cutoff_positions.countP (fun c => decide (c ≤ t)) :=
                  count_ok t w hw'
                rw [hcw, hcount_ps (t + 1) (by omega) htj]
                exact (countP_le_split s.cutoff_positions t).symm
              · rw [if_neg htj] at hw
                have hcw : w.2.preceding_cutoffs =
                    s.cutoff_positions.countP (fun c => decide (c ≤ t + 1)) :=
                  count_ok (t + 1) w hw
                rw [hcount_big (t + 1) (by omega), hcw]
                omega
          · -- I2 for the new state
            intro q c hq
            replace hq : s.cutoff_positions[q]? = some c := hq
            have hqm : q < m := by
              have := (List.getElem?_eq_some_iff.mp hq).1
              omega
            show ((s.following_ind.take z).map (fun _ => (some id : Option Nat)) ++
                r.1)[q]? = some ((r.2.nodes[c]?).map Prod.fst)
            have hqle : q < pc ↔ c ≤ j + 1 := by
              rw [hpcLE]
              exact sorted_countP_lt_iff sorted hq (j + 1)
            by_cases hqz2 : q < z
            · rw [List.getElem?_append, htakelen, if_pos hqz2, List.getElem?_map]
              have hqfl : q < s.following_ind.length := by rw [len_eq]; omega
              have hzq : (s.following_ind.take z)[q]? =
                  some (s.following_ind[q]) := by
                rw [List.getElem?_take, if_pos hqz2]
                exact List.getElem?_eq_getElem hqfl
              rw [hzq]
              have hc0 : c = 0 :=
                (CutoffList.lt_leading_zeros_iff sorted hq).mp (by omega)
              subst hc0
              rw [hfstr 0, hL1at 0, if_pos rfl]
              rfl
            · rw [List.getElem?_append, htakelen, if_neg hqz2, spA',
                List.getElem?_append]
              by_cases hqpc2 : q < pc
              · rw [if_pos (by rw [List.length_map]; omega), List.getElem?_map]
                have hpsq : ps[q - z]? = some c := by
                  rw [hps, List.getElem?_take, if_pos (by omega), List.getElem?_drop,
                    show z + (q - z) = q from by omega]
                  exact hq
                rw [hpsq, hfstr c]
                rfl
              · have hcgt : ¬c ≤ j + 1 := fun hle => hqpc2 (hqle.mpr hle)
                rw [if_neg (by rw [List.length_map]; omega), List.length_map,
                  List.getElem?_drop, hes, List.getElem?_drop,
                  show z + (ps.length + (q - z - ps.length)) = q from by omega,
                  cache_ok q c hq, hfstr c, hL1at c,
                  if_neg (show ¬c = 0 by omega),
                  if_neg (show ¬c ≤ j + 1 by omega)]

/-- `remove` on an empty or stale handle returns `none` and leaves the state
completely unchanged (the `?` operator in the Rust code returns early). -/
theorem CutoffList.remove_stale (s : CutoffList T) (i : Option Nat)
    (h : s.get i = none) : s.remove i = (none, s) := by
  cases i with
  | none => rfl
  | some id =>
    have hlook : lookupId s.list.nodes id = none := by
      have h' : (lookupId s.list.nodes id).map Entry.value = none := h
      cases hl : lookupId s.list.nodes id with
      | none => rfl
      | some e =>
        rw [hl] at h'
        exact Option.noConfusion h'
    rw [CutoffList.remove]
    simp [IndexList.remove, hlook]

/-- The freshly constructed tracker satisfies the invariant (given the
constructor's sortedness precondition, which the Rust code asserts). -/
theorem CutoffList.inv_new (cutoffs : List Nat) (hs : List.Sorted (· ≤ ·) cutoffs) :
    (CutoffList.new cutoffs : CutoffList T).Inv := by
  refine ⟨⟨by simp [CutoffList.new, IndexList.new], by simp [CutoffList.new, IndexList.new],
    by simp [CutoffList.new, IndexList.new], by simp [CutoffList.new, IndexList.new],
    by simp [CutoffList.new, IndexList.new]⟩,
    by simp [CutoffList.new], hs, ?_, ?_⟩
  · intro p x hx
    simp [CutoffList.new, IndexList.new] at hx
  · intro q c hq
    have hqm : q < cutoffs.length := (List.getElem?_eq_some_iff.mp hq).1
    simp [CutoffList.new, IndexList.new, List.getElem?_replicate, hqm]

/-- `remove` preserves the invariant for every argument (live, stale or
empty handle). -/
theorem CutoffList.remove_inv (s : CutoffList T) (hInv : s.Inv) (i : Option Nat) :
    (s.remove i).2.Inv := by
  cases i with
  | none =>
    rw [CutoffList.remove_stale s none rfl]
    exact hInv
  | some id =>
    cases hl : lookupId s.list.nodes id with
    | none =>
      have hg : s.get (some id) = none := by
        show (lookupId s.list.nodes id).map Entry.value = none
        rw [hl]
        rfl
      rw [CutoffList.remove_stale s _ hg]
      exact hInv
    | some e =>
      have hmem : id ∈ s.list.nodes.map Prod.fst := IndexList.lookup_mem_fst hl
      cases hp : posOf s.list.nodes id with
      | none => exact absurd hmem (posOf_eq_none_iff.mp hp)
      | some rk =>
        obtain ⟨w, hw⟩ := posOf_some hp
        exact (CutoffList.remove_spec s hInv hw).2.2.1

/-- Every state reachable from `CutoffList::new` by the four public mutating
operations satisfies the full invariant I1-I4 plus store well-formedness. -/
theorem CutoffList.reachable_inv {s : CutoffList T} (h : s.Reachable) : s.Inv := by
  induction h with
  | new cutoffs hs => exact CutoffList.inv_new cutoffs hs
  | insert_first s v _ ih => exact (CutoffList.insert_first_spec s v ih).2.2.1
  | insert_last s v _ ih => exact (CutoffList.insert_last_spec s v ih).2.2.1
  | shift_to_front s i _ ih => exact CutoffList.shift_to_front_inv s ih i
  | remove s i _ ih => exact CutoffList.remove_inv s ih i

/-- A `CutoffList` lookup with `get` fails exactly when the slot id is not
live in the store. -/
theorem CutoffList.get_eq_none_iff {s : CutoffList T} {id : Nat} :
    s.get (some id) = none ↔ id ∉ s.list.nodes.map Prod.fst := by
  have hshape : s.get (some id) = (lookupId s.list.nodes id).map Entry.value := rfl
  rw [hshape, ← lookupId_eq_none_iff]
  cases lookupId s.list.nodes id with
  | none => simp
  | some e => simp

/-- Slot ids live after `shift_index_to_front` were live before. -/
theorem IndexList.mem_fst_shift {α : Type} {l : IndexList α} {i : Option Nat} {a : Nat}
    (ha : a ∈ (l.shift_index_to_front i).2.nodes.map Prod.fst) :
    a ∈ l.nodes.map Prod.fst := by
  cases i with
  | none => exact ha
  | some id =>
    cases hl : lookupId l.nodes id with
    | none =>
      rw [show (l.shift_index_to_front (some id)).2 = l by
        simp [IndexList.shift_index_to_front, hl]] at ha
      exact ha
    | some e =>
      rw [show (l.shift_index_to_front (some id)).2 =
          IndexList.mk ((id, e) :: eraseId l.nodes id) l.free l.next_id by
        simp [IndexList.shift_index_to_front, hl]] at ha
      rw [List.map_cons, List.mem_cons] at ha
      rcases ha with rfl | ha
      · exact IndexList.lookup_mem_fst hl
      · exact mem_eraseId_fst ha

/-- Slot ids live after `CutoffList.shift_to_front` were live before. -/
theorem CutoffList.mem_fst_shift_to_front {s : CutoffList T} {j : Option Nat} {a : Nat}
    (ha : a ∈ (s.shift_to_front j).list.nodes.map Prod.fst) :
    a ∈ s.list.nodes.map Prod.fst := by
  cases hg : (s.list.prev_index j).isNone with
  | true =>
    rw [show s.shift_to_front j = s by rw [CutoffList.shift_to_front]; simp [hg]] at ha
    exact ha
  | false =>
    rw [CutoffList.shift_to_front] at ha
    simp only [hg, Bool.false_eq_true, if_false] at ha
    rw [(CutoffList.shift_to_front_loop_skel _ _ _ _ _).1] at ha
    have ha' := IndexList.mem_fst_shift ha
    rw [IndexList.get_mut_nodes_map_fst] at ha'
    exact ha'

/-- Slot ids live after `CutoffList.remove` were live before. -/
theorem CutoffList.mem_fst_remove {s : CutoffList T} {j : Option Nat} {a : Nat}
    (ha : a ∈ (s.remove j).2.list.nodes.map Prod.fst) :
    a ∈ s.list.nodes.map Prod.fst := by
  cases j with
  | none =>
    rw [CutoffList.remove_stale s none rfl] at ha
    exact ha
  | some id =>
    cases hl : lookupId s.list.nodes id with
    | none =>
      have hg : s.get (some id) = none := by
        rw [CutoffList.get_eq_none_iff]
        exact lookupId_eq_none_iff.mp hl
      rw [CutoffList.remove_stale s _ hg] at ha
      exact ha
    | some e =>
      have hrem : s.list.remove (some id) =
          (some e, IndexList.mk (eraseId s.list.nodes id) (id :: s.list.free)
            s.list.next_id) := by
        simp only [IndexList.remove, hl]
      rw [CutoffList.remove] at ha
      simp only [hrem] at ha
      rw [(CutoffList.remove_after_loop_skel _ _).1] at ha
      exact mem_eraseId_fst ha

/-- A stale handle stays stale across `shift_to_front`. -/
theorem CutoffList.get_stale_shift {s : CutoffList T} {h : Option Nat}
    (hst : s.get h = none) (j : Option Nat) : (s.shift_to_front j).get h = none := by
  cases h with
  | none => rfl
  | some id =>
    rw [CutoffList.get_eq_none_iff] at hst ⊢
    exact fun hmem => hst (CutoffList.mem_fst_shift_to_front hmem)

/-- A stale handle stays stale across `remove`. -/
theorem CutoffList.get_stale_remove {s : CutoffList T} {h : Option Nat}
    (hst : s.get h = none) (j : Option Nat) : ((s.remove j).2).get h = none := by
  cases h with
  | none => rfl
  | some id =>
    rw [CutoffList.get_eq_none_iff] at hst ⊢
    exact fun hmem => hst (CutoffList.mem_fst_remove hmem)

end OpSpecs

/-! The claims. -/

section Claims

/-- C1: after any sequence of `insert_first` / `insert_last` /
`shift_to_front` / `remove` calls starting from `CutoffList::new` over a
sorted cutoff vector, every live element at rank `p` has
`preceding_cutoffs` equal to the number of cutoffs `<= p`, and every cutoff
index `q` caches in `following_ind(q)` the handle of the first live element
at rank `>= cutoff_positions[q]` — the element at rank `cutoff_positions[q]`
— or the empty `Index` when no such element exists. -/
theorem claim_C1 (T : Type) (s : CutoffList T) (h : s.Reachable) :
    (∀ (p : Nat) (x : Nat × Entry T), s.list.nodes[p]? = some x →
      x.2.preceding_cutoffs = s.cutoff_positions.countP (fun c => decide (c ≤ p))) ∧
    (∀ (q c : Nat), s.cutoff_positions[q]? = some c →
      s.following_handle q = (s.list.nodes[c]?).map Prod.fst) := by
  have hInv := CutoffList.reachable_inv h
  refine ⟨hInv.count_ok, fun q c hq => ?_⟩
  rw [CutoffList.following_handle, hInv.cache_ok q c hq]
  rfl

theorem claim_C1_witness :
    (∀ (p : Nat) (x : Nat × Entry Nat),
        ((CutoffList.new [0]).insert_last 5).2.list.nodes[p]? = some x →
        x.2.preceding_cutoffs =
          ((CutoffList.new [0]).insert_last 5).2.cutoff_positions.countP
            (fun c => decide (c ≤ p))) ∧
    (∀ (q c : Nat),
        ((CutoffList.new [0]).insert_last 5).2.cutoff_positions[q]? = some c →
        ((CutoffList.new [0]).insert_last 5).2.following_handle q =
          (((CutoffList.new [0]).insert_last 5).2.list.nodes[c]?).map Prod.fst) :=
  claim_C1 Nat ((CutoffList.new [0]).insert_last 5).2
    (CutoffList.Reachable.insert_last (CutoffList.new [0]) 5
      (CutoffList.Reachable.new [0] (by decide)))

/-- C2: on an invariant-satisfying state, `insert_first(v)` returns the
freshly allocated handle; the new element sits at rank 0 with
`preceding_cutoffs` equal to the length of the leading run of zero-valued
cutoffs; every previously present element keeps its handle and value one
rank later; the length grows by one; and every cutoff of the leading zero
run has its cache entry retargeted to the new handle. -/
theorem claim_C2 (T : Type) (s : CutoffList T) (v : T) (hInv : s.Inv) :
    (s.insert_first v).1 = some s.list.alloc.1 ∧
    (s.insert_first v).2.list.nodes[0]? =
      some (s.list.alloc.1, ⟨v, s.count_leading_zeros⟩) ∧
    (∀ i : Nat, ((s.insert_first v).2.list.nodes[i + 1]?).map keyVal =
      (s.list.nodes[i]?).map keyVal) ∧
    (s.insert_first v).2.len = s.len + 1 ∧
    (∀ q : Nat, q < s.count_leading_zeros →
      (s.insert_first v).2.following_ind[q]? = some (some s.list.alloc.1)) := by
  obtain ⟨h1, h2, h3, h4, h5, h6, _, _⟩ := CutoffList.insert_first_spec s v hInv
  refine ⟨h1, h4, h5, h6, ?_⟩
  intro q hq
  have hzm : s.count_leading_zeros ≤ s.cutoff_positions.length :=
    CutoffList.count_leading_zeros_le s
  obtain ⟨c, hc⟩ : ∃ c, s.cutoff_positions[q]? = some c := by
    have hlt : q < s.cutoff_positions.length := by omega
    exact ⟨_, List.getElem?_eq_getElem hlt⟩
  have hc0 : c = 0 := (CutoffList.lt_leading_zeros_iff hInv.sorted hc).mp hq
  subst hc0
  have hcache := h3.cache_ok q 0 (by rw [h2]; exact hc)
  rw [hcache, h4]
  rfl

theorem claim_C2_witness :
    (((CutoffList.new [0, 0, 2] : CutoffList Nat).insert_first 9).1 =
      some (CutoffList.new [0, 0, 2] : CutoffList Nat).list.alloc.1) ∧
    (((CutoffList.new [0, 0, 2] : CutoffList Nat).insert_first 9).2.list.nodes[0]? =
      some ((CutoffList.new [0, 0, 2] : CutoffList Nat).list.alloc.1,
        ⟨9, (CutoffList.new [0, 0, 2] : CutoffList Nat).count_leading_zeros⟩)) ∧
    (∀ i : Nat,
      ((((CutoffList.new [0, 0, 2] : CutoffList Nat).insert_first
          9).2.list.nodes[i + 1]?).map keyVal =
        ((CutoffList.new [0, 0, 2] : CutoffList Nat).list.nodes[i]?).map keyVal)) ∧
    (((CutoffList.new [0, 0, 2] : CutoffList Nat).insert_first 9).2.len =
      (CutoffList.new [0, 0, 2] : CutoffList Nat).len + 1) ∧
    (∀ q : Nat, q < (CutoffList.new [0, 0, 2] : CutoffList Nat).count_leading_zeros →
      ((CutoffList.new [0, 0, 2] : CutoffList Nat).insert_first 9).2.following_ind[q]? =
        some (some (CutoffList.new [0, 0, 2] : CutoffList Nat).list.alloc.1)) :=
  claim_C2 Nat (CutoffList.new [0, 0, 2]) 9 (CutoffList.inv_new [0, 0, 2] (by decide))

/-- C3: on an invariant-satisfying state with `n` live elements,
`insert_last(v)` returns the freshly allocated handle; the new element is
appended at rank `n` with `preceding_cutoffs` equal to the count of cutoffs
`<= n` while all other stored nodes are unchanged; cache entries of cutoffs
exactly equal to `n` — all of which were empty beforehand — are set to the
new handle; every other cache entry is untouched; the length grows by
one. -/
theorem claim_C3 (T : Type) (s : CutoffList T) (v : T) (hInv : s.Inv) :
    (s.insert_last v).1 = some s.list.alloc.1 ∧
    (s.insert_last v).2.list.nodes = s.list.nodes ++
      [(s.list.alloc.1, ⟨v, s.cutoff_positions.countP (fun c => decide (c ≤ s.len))⟩)] ∧
    (∀ (q c : Nat), s.cutoff_positions[q]? = some c →
      (s.insert_last v).2.following_ind[q]? =
        if c = s.len then some (some s.list.alloc.1) else s.following_ind[q]?) ∧
    (∀ (q c : Nat), s.cutoff_positions[q]? = some c → c = s.len →
      s.following_ind[q]? = some none) ∧
    (s.insert_last v).2.len = s.len + 1 := by
  obtain ⟨h1, _, _, h4, h5, h6, h7⟩ := CutoffList.insert_last_spec s v hInv
  exact ⟨h1, h4, h5, h6, h7⟩

theorem claim_C3_witness :
    (((CutoffList.new [2] : CutoffList Nat).insert_last 4).1 =
      some (CutoffList.new [2] : CutoffList Nat).list.alloc.1) ∧
    (((CutoffList.new [2] : CutoffList Nat).insert_last 4).2.list.nodes =
      (CutoffList.new [2] : CutoffList Nat).list.nodes ++
        [((CutoffList.new [2] : CutoffList Nat).list.alloc.1,
          ⟨4, (CutoffList.new [2] : CutoffList Nat).cutoff_positions.countP
            (fun c => decide (c ≤ (CutoffList.new [2] : CutoffList Nat).len))⟩)]) ∧
    (∀ (q c : Nat), (CutoffList.new [2] : CutoffList Nat).cutoff_positions[q]? = some c →
      ((CutoffList.new [2] : CutoffList Nat).insert_last 4).2.following_ind[q]? =
        if c = (CutoffList.new [2] : CutoffList Nat).len
        then some (some (CutoffList.new [2] : CutoffList Nat).list.alloc.1)
        else (CutoffList.new [2] : CutoffList Nat).following_ind[q]?) ∧
    (∀ (q c : Nat), (CutoffList.new [2] : CutoffList Nat).cutoff_positions[q]? = some c →
      c = (CutoffList.new [2] : CutoffList Nat).len →
      (CutoffList.new [2] : CutoffList Nat).following_ind[q]? = some none) ∧
    (((CutoffList.new [2] : CutoffList Nat).insert_last 4).2.len =
      (CutoffList.new [2] : CutoffList Nat).len + 1) :=
  claim_C3 Nat (CutoffList.new [2]) 4 (CutoffList.inv_new [2] (by decide))

/-- C4: on an invariant-satisfying state, `remove` of a live handle returns
the stored value, drops exactly that element (the length decreases by one,
elements before its rank keep their position, later ones move up one, and
the handle is no longer live); `remove` of a stale or empty handle returns
`None` and leaves the whole state unchanged — there is no partially-applied
state. -/
theorem claim_C4 (T : Type) (s : CutoffList T) (hInv : s.Inv) :
    (∀ (rk : Nat) (x : Nat × Entry T), s.list.nodes[rk]? = some x →
      (s.remove (some x.1)).1 = some x.2.value ∧
      (s.remove (some x.1)).2.len + 1 = s.len ∧
      (∀ i : Nat, ((s.remove (some x.1)).2.list.nodes[i]?).map keyVal =
        if i < rk then (s.list.nodes[i]?).map keyVal
        else (s.list.nodes[i + 1]?).map keyVal) ∧
      x.1 ∉ (s.remove (some x.1)).2.list.nodes.map Prod.fst) ∧
    (∀ i : Option Nat, s.get i = none → s.remove i = (none, s)) := by
  refine ⟨fun rk x hx => ?_, fun i hi => CutoffList.remove_stale s i hi⟩
  obtain ⟨h1, _, _, h4, h5, h6⟩ := CutoffList.remove_spec s hInv hx
  exact ⟨h1, h5, h4, h6⟩

theorem claim_C4_witness :
    (∀ (rk : Nat) (x : Nat × Entry Nat),
      ((CutoffList.new [0]).insert_last 5).2.list.nodes[rk]? = some x →
      (((CutoffList.new [0]).insert_last 5).2.remove (some x.1)).1 = some x.2.value ∧
      (((CutoffList.new [0]).insert_last 5).2.remove (some x.1)).2.len + 1 =
        ((CutoffList.new [0]).insert_last 5).2.len ∧
      (∀ i : Nat,
        ((((CutoffList.new [0]).insert_last 5).2.remove
            (some x.1)).2.list.nodes[i]?).map keyVal =
          if i < rk then (((CutoffList.new [0]).insert_last 5).2.list.nodes[i]?).map keyVal
          else (((CutoffList.new [0]).insert_last 5).2.list.nodes[i + 1]?).map keyVal) ∧
      x.1 ∉ (((CutoffList.new [0]).insert_last 5).2.remove
        (some x.1)).2.list.nodes.map Prod.fst) ∧
    (∀ i : Option Nat, ((CutoffList.new [0]).insert_last 5).2.get i = none →
      ((CutoffList.new [0]).insert_last 5).2.remove i =
        (none, ((CutoffList.new [0]).insert_last 5).2)) :=
  claim_C4 Nat ((CutoffList.new [0]).insert_last 5).2
    ((CutoffList.insert_last_spec (CutoffList.new [0]) 5
      (CutoffList.inv_new [0] (by decide))).2.2.1)

/-- C5: the concrete scenario of the spec with cutoffs `[0, 0, 2]`: three
`insert_last` calls return the handles `a = some 0`, `b = some 1`,
`c = some 2`; `remove(a)` returns `a`'s value, after which the sequence is
`[b, c]`, `following_ind(0)` and `following_ind(1)` are `b`,
`preceding_cutoffs` of `b` and of `c` are both 2, and `following_ind(2)` is
empty; after `shift_to_front(c)` the sequence is `[c, b]`, both counters are
still 2, and `following_ind(2)` is still empty. -/
theorem claim_C5 :
    ((CutoffList.new [0, 0, 2] : CutoffList Nat).insert_last 10).1 = some 0 ∧
    (((CutoffList.new [0, 0, 2] : CutoffList Nat).insert_last 10).2.insert_last 20).1 =
      some 1 ∧
    ((((CutoffList.new [0, 0, 2] : CutoffList Nat).insert_last 10).2.insert_last
      20).2.insert_last 30).1 = some 2 ∧
    (((((CutoffList.new [0, 0, 2] : CutoffList Nat).insert_last 10).2.insert_last
      20).2.insert_last 30).2.remove (some 0)).1 = some 10 ∧
    ((((((CutoffList.new [0, 0, 2] : CutoffList Nat).insert_last 10).2.insert_last
      20).2.insert_last 30).2.remove (some 0)).2.first_index = some 1 ∧
    (((((CutoffList.new [0, 0, 2] : CutoffList Nat).insert_last 10).2.insert_last
      20).2.insert_last 30).2.remove (some 0)).2.next_index (some 1) = some 2 ∧
    (((((CutoffList.new [0, 0, 2] : CutoffList Nat).insert_last 10).2.insert_last
      20).2.insert_last 30).2.remove (some 0)).2.next_index (some 2) = none ∧
    (((((CutoffList.new [0, 0, 2] : CutoffList Nat).insert_last 10).2.insert_last
      20).2.insert_last 30).2.remove (some 0)).2.get (some 1) = some 20 ∧
    (((((CutoffList.new [0, 0, 2] : CutoffList Nat).insert_last 10).2.insert_last
      20).2.insert_last 30).2.remove (some 0)).2.get (some 2) = some 30 ∧
    (((((CutoffList.new [0, 0, 2] : CutoffList Nat).insert_last 10).2.insert_last
      20).2.insert_last 30).2.remove (some 0)).2.following_handle 0 = some 1 ∧
    (((((CutoffList.new [0, 0, 2] : CutoffList Nat).insert_last 10).2.insert_last
      20).2.insert_last 30).2.remove (some 0)).2.following_handle 1 = some 1 ∧
    (((((CutoffList.new [0, 0, 2] : CutoffList Nat).insert_last 10).2.insert_last
      20).2.insert_last 30).2.remove (some 0)).2.following_handle 2 = none ∧
    (((((CutoffList.new [0, 0, 2] : CutoffList Nat).insert_last 10).2.insert_last
      20).2.insert_last 30).2.remove (some 0)).2.preceding_cutoffs (some 1) = some 2 ∧
    (((((CutoffList.new [0, 0, 2] : CutoffList Nat).insert_last 10).2.insert_last
      20).2.insert_last 30).2.remove (some 0)).2.preceding_cutoffs (some 2) = some 2 ∧
    ((((((CutoffList.new [0, 0, 2] : CutoffList Nat).insert_last 10).2.insert_last
      20).2.insert_last 30).2.remove (some 0)).2.shift_to_front
        (some 2)).first_index = some 2 ∧
    ((((((CutoffList.new [0, 0, 2] : CutoffList Nat).insert_last 10).2.insert_last
      20).2.insert_last 30).2.remove (some 0)).2.shift_to_front
        (some 2)).next_index (some 2) = some 1 ∧
    ((((((CutoffList.new [0, 0, 2] : CutoffList Nat).insert_last 10).2.insert_last
      20).2.insert_last 30).2.remove (some 0)).2.shift_to_front
        (some 2)).next_index (some 1) = none ∧
    ((((((CutoffList.new [0, 0, 2] : CutoffList Nat).insert_last 10).2.insert_last
      20).2.insert_last 30).2.remove (some 0)).2.shift_to_front
        (some 2)).preceding_cutoffs (some 2) = some 2 ∧
    ((((((CutoffList.new [0, 0, 2] : CutoffList Nat).insert_last 10).2.insert_last
      20).2.insert_last 30).2.remove (some 0)).2.shift_to_front
        (some 2)).preceding_cutoffs (some 1) = some 2 ∧
    ((((((CutoffList.new [0, 0, 2] : CutoffList Nat).insert_last 10).2.insert_last
      20).2.insert_last 30).2.remove (some 0)).2.shift_to_front
        (some 2)).following_handle 2 = none) := by
  decide

/-- C6: `shift_to_front` on the current first handle, or on a handle that
denotes no live element, returns the state itself — every piece of
observable state (values, ranks, counters, cache, length) is unchanged, and
the two cases are indistinguishable to the caller. -/
theorem claim_C6 (T : Type) (s : CutoffList T) :
    s.shift_to_front s.first_index = s ∧
    ∀ i : Option Nat, s.get i = none → s.shift_to_front i = s :=
  ⟨CutoffList.shift_to_front_first_eq s,
    fun _ hi => CutoffList.shift_to_front_of_get_none hi⟩

/-- C7 counterexample: the handle `some 0` is issued for value 5 and
removed; immediately afterwards it is stale (`get` returns `none`), but
after `insert_first 7` reuses the freed slot 0 the same old handle is live
again — `get` on it returns `some 7` and `remove` on it succeeds with
`some 7` — so a removed handle is NOT treated as "not found" by every
subsequent operation regardless of intervening insertions. -/
theorem claim_C7_counterexample :
    ((CutoffList.new [] : CutoffList Nat).insert_last 5).1 = some 0 ∧
    (((CutoffList.new [] : CutoffList Nat).insert_last 5).2.remove (some 0)).1 =
      some 5 ∧
    (((CutoffList.new [] : CutoffList Nat).insert_last 5).2.remove
      (some 0)).2.get (some 0) = none ∧
    ((((CutoffList.new [] : CutoffList Nat).insert_last 5).2.remove
      (some 0)).2.insert_first 7).1 = some 0 ∧
    ((((CutoffList.new [] : CutoffList Nat).insert_last 5).2.remove
      (some 0)).2.insert_first 7).2.get (some 0) = some 7 ∧
    (((((CutoffList.new [] : CutoffList Nat).insert_last 5).2.remove
      (some 0)).2.insert_first 7).2.remove (some 0)).1 = some 7 := by
  decide

/-- C7 (amended): a handle that is stale NOW is treated as "not found" by
every operation — `remove` returns `none` and changes nothing,
`preceding_cutoffs` returns `none`, `shift_to_front` is an identity — and
it stays stale across any further `shift_to_front` or `remove` (so across
every insertion-free operation sequence, by induction); only an intervening
insertion can revive it, by reusing the freed slot (see the
counterexample). -/
theorem claim_C7_corrected (T : Type) (s : CutoffList T) (h : Option Nat)
    (hst : s.get h = none) :
    s.remove h = (none, s) ∧
    s.preceding_cutoffs h = none ∧
    s.shift_to_front h = s ∧
    (∀ j : Option Nat, (s.shift_to_front j).get h = none) ∧
    (∀ j : Option Nat, ((s.remove j).2).get h = none) := by
  refine ⟨CutoffList.remove_stale s h hst, ?_,
    CutoffList.shift_to_front_of_get_none hst,
    fun j => CutoffList.get_stale_shift hst j,
    fun j => CutoffList.get_stale_remove hst j⟩
  have hg : s.list.get h = none := by
    have h' : (s.list.get h).map Entry.value = none := hst
    cases hgl : s.list.get h with
    | none => rfl
    | some e =>
      rw [hgl] at h'
      exact Option.noConfusion h'
  rw [CutoffList.preceding_cutoffs, hg]
  rfl

theorem claim_C7_corrected_witness :
    ((CutoffList.new [0] : CutoffList Nat).remove (some 3) =
      (none, (CutoffList.new [0] : CutoffList Nat))) ∧
    ((CutoffList.new [0] : CutoffList Nat).preceding_cutoffs (some 3) = none) ∧
    ((CutoffList.new [0] : CutoffList Nat).shift_to_front (some 3) =
      (CutoffList.new [0] : CutoffList Nat)) ∧
    (∀ j : Option Nat,
      ((CutoffList.new [0] : CutoffList Nat).shift_to_front j).get (some 3) = none) ∧
    (∀ j : Option Nat,
      (((CutoffList.new [0] : CutoffList Nat).remove j).2).get (some 3) = none) :=
  claim_C7_corrected Nat (CutoffList.new [0]) (some 3) (by decide)

/-- C8: on an invariant-satisfying state, inserting a value with
`insert_first` or with `insert_last` and immediately removing the returned
handle yields `Some` of the same value, and the length returns to its prior
value. -/
theorem claim_C8 (T : Type) (s : CutoffList T) (v : T) (hInv : s.Inv) :
    ((s.insert_first v).2.remove (s.insert_first v).1).1 = some v ∧
    ((s.insert_first v).2.remove (s.insert_first v).1).2.len = s.len ∧
    ((s.insert_last v).2.remove (s.insert_last v).1).1 = some v ∧
    ((s.insert_last v).2.remove (s.insert_last v).1).2.len = s.len := by
  obtain ⟨f1, _, f3, f4, _, f6, _, _⟩ := CutoffList.insert_first_spec s v hInv
  obtain ⟨l1, _, l3, l4, _, _, l7⟩ := CutoffList.insert_last_spec s v hInv
  have hfr := CutoffList.remove_spec (s.insert_first v).2 f3 f4
  have hlrk : (s.insert_last v).2.list.nodes[s.list.nodes.length]? =
      some (s.list.alloc.1, (⟨v, s.expected_cutoffs s.len⟩ : Entry T)) := by
    rw [l4, List.getElem?_append_right (le_refl _)]
    simp
  have hlr := CutoffList.remove_spec (s.insert_last v).2 l3 hlrk
  rw [f1, l1]
  refine ⟨hfr.1, ?_, hlr.1, ?_⟩
  · have h2 : ((s.insert_first v).2.remove (some s.list.alloc.1)).2.len + 1 =
        (s.insert_first v).2.len := hfr.2.2.2.2.1
    omega
  · have h2 : ((s.insert_last v).2.remove (some s.list.alloc.1)).2.len + 1 =
        (s.insert_last v).2.len := hlr.2.2.2.2.1
    omega

theorem claim_C8_witness :
    (((CutoffList.new [0, 1] : CutoffList Nat).insert_first 42).2.remove
      ((CutoffList.new [0, 1] : CutoffList Nat).insert_first 42).1).1 = some 42 ∧
    (((CutoffList.new [0, 1] : CutoffList Nat).insert_first 42).2.remove
      ((CutoffList.new [0, 1] : CutoffList Nat).insert_first 42).1).2.len =
      (CutoffList.new [0, 1] : CutoffList Nat).len ∧
    (((CutoffList.new [0, 1] : CutoffList Nat).insert_last 42).2.remove
      ((CutoffList.new [0, 1] : CutoffList Nat).insert_last 42).1).1 = some 42 ∧
    (((CutoffList.new [0, 1] : CutoffList Nat).insert_last 42).2.remove
      ((CutoffList.new [0, 1] : CutoffList Nat).insert_last 42).1).2.len =
      (CutoffList.new [0, 1] : CutoffList Nat).len :=
  claim_C8 Nat (CutoffList.new [0, 1]) 42 (CutoffList.inv_new [0, 1] (by decide))

/-- C9: in every reachable state, a cache entry `following_ind(q)` is
non-empty exactly when `cutoff_positions[q] < len()`; by sortedness the
non-empty entries therefore form a prefix of the cache: once an entry is
empty, every later entry is empty. -/
theorem claim_C9 (T : Type) (s : CutoffList T) (h : s.Reachable) :
    (∀ (q c : Nat), s.cutoff_positions[q]? = some c →
      ((s.following_handle q).isSome = true ↔ c < s.len)) ∧
    (∀ q q' : Nat, q ≤ q' → s.following_handle q = none →
      s.following_handle q' = none) := by
  have hInv := CutoffList.reachable_inv h
  have hmain : ∀ (q c : Nat), s.cutoff_positions[q]? = some c →
      s.following_handle q = (s.list.nodes[c]?).map Prod.fst := by
    intro q c hq
    rw [CutoffList.following_handle, hInv.cache_ok q c hq]
    rfl
  refine ⟨?_, ?_⟩
  · intro q c hq
    rw [hmain q c hq]
    cases hn : s.list.nodes[c]? with
    | none =>
      have hge : s.list.nodes.length ≤ c := by
        by_contra hcon
        push_neg at hcon
        rw [List.getElem?_eq_getElem hcon] at hn
        exact Option.noConfusion hn
      have hlen : s.len = s.list.nodes.length := rfl
      simp only [Option.map_none', Option.isSome_none, Bool.false_eq_true, false_iff,
        hlen]
      omega
    | some y =>
      have hlt : c < s.list.nodes.length := (List.getElem?_eq_some_iff.mp hn).1
      simp only [Option.map_some', Option.isSome_some, true_iff]
      exact hlt
  · intro q q' hqq hqnone
    cases hq' : s.cutoff_positions[q']? with
    | none =>
      have hq'm : s.cutoff_positions.length ≤ q' := by
        by_contra hcon
        push_neg at hcon
        rw [List.getElem?_eq_getElem hcon] at hq'
        exact Option.noConfusion hq'
      have hfnone : s.following_ind[q']? = none := by
        rw [List.getElem?_eq_none_iff, hInv.len_eq]
        exact hq'm
      rw [CutoffList.following_handle, hfnone]
      rfl
    | some c' =>
      have hq'm : q' < s.cutoff_positions.length := (List.getElem?_eq_some_iff.mp hq').1
      obtain ⟨c, hq⟩ : ∃ c, s.cutoff_positions[q]? = some c := by
        have hlt : q < s.cutoff_positions.length := by omega
        exact ⟨_, List.getElem?_eq_getElem hlt⟩
      have hcc : c ≤ c' := sorted_le_getElem? hInv.sorted hqq hq hq'
      have h1 := hmain q c hq
      rw [hqnone] at h1
      have hnone : s.list.nodes[c]? = none := by
        cases hn : s.list.nodes[c]? with
        | none => rfl
        | some y =>
          rw [hn] at h1
          simp at h1
      have hclen : s.list.nodes.length ≤ c := by
        by_contra hcon
        push_neg at hcon
        rw [List.getElem?_eq_getElem hcon] at hnone
        exact Option.noConfusion hnone
      rw [hmain q' c' hq', List.getElem?_eq_none_iff.mpr (by omega)]
      rfl

theorem claim_C9_witness :
    (∀ (q c : Nat),
      ((CutoffList.new [1]).insert_last 8).2.cutoff_positions[q]? = some c →
      ((((CutoffList.new [1]).insert_last 8).2.following_handle q).isSome = true ↔
        c < ((CutoffList.new [1]).insert_last 8).2.len)) ∧
    (∀ q q' : Nat, q ≤ q' →
      ((CutoffList.new [1]).insert_last 8).2.following_handle q = none →
      ((CutoffList.new [1]).insert_last 8).2.following_handle q' = none) :=
  claim_C9 Nat ((CutoffList.new [1]).insert_last 8).2
    (CutoffList.Reachable.insert_last (CutoffList.new [1]) 8
      (CutoffList.Reachable.new [1] (by decide)))

/-- C10: on an invariant-satisfying state, immediately after `remove` of a
live handle returns `Some` of its value — with no intervening insertions —
`get` on that handle returns `none`, `preceding_cutoffs` returns `none`,
and a second `remove` returns `none` and changes nothing. -/
theorem claim_C10 (T : Type) (s : CutoffList T) (hInv : s.Inv)
    (rk : Nat) (x : Nat × Entry T) (hrk : s.list.nodes[rk]? = some x) :
    (s.remove (some x.1)).1 = some x.2.value ∧
    (s.remove (some x.1)).2.get (some x.1) = none ∧
    (s.remove (some x.1)).2.preceding_cutoffs (some x.1) = none ∧
    ((s.remove (some x.1)).2.remove (some x.1)) = (none, (s.remove (some x.1)).2) := by
  obtain ⟨h1, _, _, _, _, h6⟩ := CutoffList.remove_spec s hInv hrk
  have hget : (s.remove (some x.1)).2.get (some x.1) = none :=
    CutoffList.get_eq_none_iff.mpr h6
  have hpc : (s.remove (some x.1)).2.preceding_cutoffs (some x.1) = none := by
    have hg : (s.remove (some x.1)).2.list.get (some x.1) = none := by
      have h' : ((s.remove (some x.1)).2.list.get (some x.1)).map Entry.value = none :=
        hget
      cases hgl : (s.remove (some x.1)).2.list.get (some x.1) with
      | none => rfl
      | some e =>
        rw [hgl] at h'
        exact Option.noConfusion h'
    rw [CutoffList.preceding_cutoffs, hg]
    rfl
  exact ⟨h1, hget, hpc, CutoffList.remove_stale _ _ hget⟩

theorem claim_C10_witness :
    ((((CutoffList.new [0]).insert_last 6).2.remove (some 0)).1 = some 6) ∧
    ((((CutoffList.new [0]).insert_last 6).2.remove (some 0)).2.get (some 0) = none) ∧
    ((((CutoffList.new [0]).insert_last 6).2.remove (some 0)).2.preceding_cutoffs
      (some 0) = none) ∧
    (((((CutoffList.new [0]).insert_last 6).2.remove (some 0)).2.remove (some 0)) =
      (none, (((CutoffList.new [0]).insert_last 6).2.remove (some 0)).2)) :=
  claim_C10 Nat ((CutoffList.new [0]).insert_last 6).2
    ((CutoffList.insert_last_spec (CutoffList.new [0]) 6
      (CutoffList.inv_new [0] (by decide))).2.2.1)
    0 (0, ⟨6, 1⟩) rfl

end Claims

end CutoffSpec
